import Mathlib

/-
  Verification of the addition-game solver
  (src/src/minimax/game_addition_demo.py).

  The Python module solves Blackwell's addition game: players alternately
  add an integer from 1..k to a running sum; the player whose move pushes
  the sum above N loses.  The module contains a backward-induction solver
  (solve_addition_game), a closed-form oracle, a plain minimax tree search
  (minimax_tree), an alpha-beta pruned search (minimax_ab_tree) and a game
  simulator (demo_game_play).

  Modelling conventions:
  - Python ints are modelled as Nat (parameters k, N, states s, moves i)
    and Int (game values, alpha/beta bounds).
  - The floating-point sentinels -math.inf / math.inf are used in the
    source only as initial bounds that any value from the set {-1, +1}
    immediately replaces; they are modelled by the integer sentinels
    -2 / 2, which compare the same way against every value the program
    ever produces.  (The design notes of the specification call for
    exactly this replacement.)
  - The mutable node counter (TreeStats) is modelled by returning a
    (value, nodes) pair: each call contributes 1 plus the nodes of the
    recursive calls it makes, exactly matching stats.nodes += 1 at entry.
  - The Python table V is created as [0]*(N+1) and every entry is
    overwritten before being read; the model builds the final table
    directly, entry by entry, from index N down to 0.
-/

namespace AdditionGame

/-- Closed-form oracle from verify_analytical_solution:
    expected = -1 if (N - s) % (k + 1) == 0 else +1. -/
def closedFormValue (s k N : Nat) : Int :=
  if (N - s) % (k + 1) = 0 then -1 else 1

/-- Candidate value computed in the inner loop of solve_addition_game for
    move i at state s: val = -1 if s + i > N else -V[s + i].  The table
    entries for states s+1 .. N are the list rest (head = state s+1),
    so V[s + i] is entry i - 1 of rest. -/
def candVal (rest : List (Int × Option Nat)) (s N i : Nat) : Int :=
  if s + i > N then -1 else -(rest.getD (i - 1) (0, none)).1

/-- Inner loop of solve_addition_game: for i in range(1, k+1), keep the
    candidate value if val > best_val (strict improvement only).  The
    initial best is (-math.inf, None), modelled as (-2, none).
    scanMoves rest s N m is the (best_val, best_move) state after
    scanning moves 1 .. m in ascending order. -/
def scanMoves (rest : List (Int × Option Nat)) (s N : Nat) : Nat → Int × Option Nat
  | 0 => (-2, none)
  | m + 1 =>
    let prev := scanMoves rest s N m
    let val := candVal rest s N (m + 1)
    if val > prev.1 then (val, some (m + 1)) else prev

/-- Backward induction of solve_addition_game.  solveSuffix k N d is the
    list of table entries (V[s], policy[s]) for states s = N - d .. N
    (head = state N - d).  d = 0 is the base case V[N] = -1,
    policy[N] = None; the step computes the entry for s = N - (d+1) by
    scanning the k moves against the already-built suffix. -/
def solveSuffix (k N : Nat) : Nat → List (Int × Option Nat)
  | 0 => [(-1, none)]
  | d + 1 =>
    let rest := solveSuffix k N d
    scanMoves rest (N - (d + 1)) N k :: rest

/-- Return value of solve_addition_game: the dict
    {'V': V, 'policy': policy, 'k': k, 'N': N}. -/
structure Solution where
  V : List Int
  policy : List (Option Nat)
  k : Nat
  N : Nat

/-- solve_addition_game(k, N): backward induction over s = N, N-1, ..., 0.
    The full table is solveSuffix k N N (head = state 0). -/
def solve_addition_game (k N : Nat) : Solution :=
  let tbl := solveSuffix k N N
  ⟨tbl.map Prod.fst, tbl.map Prod.snd, k, N⟩

/-- verify_analytical_solution(k, N): checks the DP table against the
    closed form at every s in 0..N (True iff no mismatch). -/
def verify_analytical_solution (k N : Nat) : Bool :=
  let sol := solve_addition_game k N
  (List.range (N + 1)).all fun s =>
    sol.V.getD s 0 == closedFormValue s k N

mutual

/-- minimax_tree(s, k, N, is_player1, stats): plain minimax returning the
    value to Player I, paired with the number of nodes visited
    (stats.nodes is incremented once at entry of every call, so the count
    of a call is 1 plus the counts of its recursive calls).
    Terminal rule: if s >= N the mover is forced to bust. -/
def minimax_tree (k N s : Nat) (is_player1 : Bool) : Int × Nat :=
  if s ≥ N then
    (if is_player1 then -1 else 1, 1)
  else if is_player1 then
    let r := mmMaxLoop k N s 0 (-2)
    (r.1, r.2 + 1)
  else
    let r := mmMinLoop k N s 0 2
    (r.1, r.2 + 1)
termination_by (N - s, k + 1)
decreasing_by
  all_goals first
    | exact Prod.Lex.left _ _ (by omega)
    | exact Prod.Lex.right _ (by omega)

/-- MAX-node loop of minimax_tree: for i in range(1, k+1), val is the
    recursive value if s + i <= N and -1 (bust) otherwise;
    best = max(best, val).  The loop counter j counts moves already
    processed (current move is j + 1); best starts at -math.inf,
    modelled as -2.  Returns (best, nodes visited by the loop). -/
def mmMaxLoop (k N s j : Nat) (best : Int) : Int × Nat :=
  if j ≥ k then (best, 0)
  else
    let c := if h : s + (j + 1) ≤ N then minimax_tree k N (s + (j + 1)) false
             else (-1, 0)
    let r := mmMaxLoop k N s (j + 1) (max best c.1)
    (r.1, c.2 + r.2)
termination_by (N - s, k - j)
decreasing_by
  all_goals first
    | exact Prod.Lex.left _ _ (by omega)
    | exact Prod.Lex.right _ (by omega)

/-- MIN-node loop of minimax_tree: val is the recursive value if
    s + i <= N and +1 (Player II busts) otherwise; best = min(best, val);
    best starts at math.inf, modelled as 2. -/
def mmMinLoop (k N s j : Nat) (best : Int) : Int × Nat :=
  if j ≥ k then (best, 0)
  else
    let c := if h : s + (j + 1) ≤ N then minimax_tree k N (s + (j + 1)) true
             else (1, 0)
    let r := mmMinLoop k N s (j + 1) (min best c.1)
    (r.1, c.2 + r.2)
termination_by (N - s, k - j)
decreasing_by
  all_goals first
    | exact Prod.Lex.left _ _ (by omega)
    | exact Prod.Lex.right _ (by omega)

end

mutual

/-- minimax_ab_tree(s, k, N, is_player1, alpha, beta, stats): minimax with
    alpha-beta pruning, returning (value to Player I, nodes visited).
    The -math.inf / math.inf bounds of the caller are modelled as -2 / 2. -/
def minimax_ab_tree (k N s : Nat) (is_player1 : Bool) (alpha beta : Int) :
    Int × Nat :=
  if s ≥ N then
    (if is_player1 then -1 else 1, 1)
  else if is_player1 then
    let r := abMaxLoop k N s 0 (-2) alpha beta
    (r.1, r.2 + 1)
  else
    let r := abMinLoop k N s 0 2 alpha beta
    (r.1, r.2 + 1)
termination_by (N - s, k + 1)
decreasing_by
  all_goals first
    | exact Prod.Lex.left _ _ (by omega)
    | exact Prod.Lex.right _ (by omega)

/-- MAX-node loop of minimax_ab_tree: val = -1 if s + i > N, else the
    recursive value with the current (alpha, beta) window;
    best = max(best, val); alpha = max(alpha, best); break when
    alpha >= beta.  j counts moves already processed. -/
def abMaxLoop (k N s j : Nat) (best alpha beta : Int) : Int × Nat :=
  if j ≥ k then (best, 0)
  else
    let c := if h : s + (j + 1) > N then ((-1 : Int), 0)
             else minimax_ab_tree k N (s + (j + 1)) false alpha beta
    let best2 := max best c.1
    let alpha2 := max alpha best2
    if alpha2 ≥ beta then (best2, c.2)
    else
      let r := abMaxLoop k N s (j + 1) best2 alpha2 beta
      (r.1, c.2 + r.2)
termination_by (N - s, k - j)
decreasing_by
  all_goals first
    | exact Prod.Lex.left _ _ (by omega)
    | exact Prod.Lex.right _ (by omega)

/-- MIN-node loop of minimax_ab_tree: val = +1 if s + i > N, else the
    recursive value; best = min(best, val); beta = min(beta, best);
    break when alpha >= beta. -/
def abMinLoop (k N s j : Nat) (best alpha beta : Int) : Int × Nat :=
  if j ≥ k then (best, 0)
  else
    let c := if h : s + (j + 1) > N then ((1 : Int), 0)
             else minimax_ab_tree k N (s + (j + 1)) true alpha beta
    let best2 := min best c.1
    let beta2 := min beta best2
    if alpha ≥ beta2 then (best2, c.2)
    else
      let r := abMinLoop k N s (j + 1) best2 alpha beta2
      (r.1, c.2 + r.2)
termination_by (N - s, k - j)
decreasing_by
  all_goals first
    | exact Prod.Lex.left _ _ (by omega)
    | exact Prod.Lex.right _ (by omega)

end

/-- One line of the game trajectory printed by demo_game_play: the mover
    (true = Player I), the sum before the move, the chosen move and the
    resulting sum. -/
structure MoveStep where
  mover1 : Bool
  sumBefore : Nat
  move : Nat
  sumAfter : Nat
deriving DecidableEq, Repr

/-- Worst-move selection of demo_game_play (suboptimal branch):
    worst_val = math.inf (modelled 2); i = 1; for j in range(1, k+1):
    val = -V[s+j] if s + j <= N else -1; keep j on strict decrease
    (val < worst_val).  worstScan V s N m is the (worst_val, i) state
    after scanning moves 1 .. m. -/
def worstScan (V : List Int) (s N : Nat) : Nat → Int × Nat
  | 0 => (2, 1)
  | m + 1 =>
    let prev := worstScan V s N m
    let val : Int := if s + (m + 1) ≤ N then -(V.getD (s + (m + 1)) 0) else -1
    if val < prev.1 then (val, m + 1) else prev

/-- Main loop of demo_game_play, with explicit fuel (the Python while-loop
    has no bound of its own; the fuel is spent one unit per move, and the
    termination claim is that N + 1 units always suffice).  State: current
    sum s, mover flag, accumulated trajectory.  At s == N the mover is
    forced to bust picking i = 1; otherwise the mover picks the optimal
    policy entry or the worst move, busts if s + i > N, else play passes
    on.  Returns (winner, trajectory): the Python function returns "II"
    if is_p1 else "I" at both losing exits, i.e. the opponent of the

    mover who busted; winner true means Player I. -/
def gamePlayLoop (k N : Nat) (p1o p2o : Bool) (V : List Int)
    (pol : List (Option Nat)) :
    Nat → Nat → Bool → List MoveStep → Option (Bool × List MoveStep)
  | 0, _, _, _ => none
  | fuel + 1, s, isP1, acc =>
    if s = N then
      some (!isP1, acc ++ [⟨isP1, s, 1, s + 1⟩])
    else
      let i := if (isP1 && p1o) || (!isP1 && p2o) then (pol.getD s none).getD 0
               else (worstScan V s N k).2
      let s2 := s + i
      if s2 > N then some (!isP1, acc ++ [⟨isP1, s, i, s2⟩])
      else gamePlayLoop k N p1o p2o V pol fuel s2 (!isP1) (acc ++ [⟨isP1, s, i, s2⟩])

/-- demo_game_play(k, N, p1_optimal, p2_optimal): solves the game, then
    simulates from s = 0 with Player I to move, giving the loop N + 1
    units of fuel (one per move; the claim that this suffices is proved
    below). -/
def demo_game_play (k N : Nat) (p1o p2o : Bool) : Option (Bool × List MoveStep) :=
  let sol := solve_addition_game k N
  gamePlayLoop k N p1o p2o sol.V sol.policy (N + 1) 0 true []

/-! ### Proof infrastructure

The closed form restated as a function of the distance d = N - s to the
threshold, together with the modular-arithmetic facts that drive every
characterization below.  These definitions are proof tools, not part of
the embedded source. -/

/-- Closed-form value as a function of the distance d = N - s. -/
def mvalD (k d : Nat) : Int := if d % (k + 1) = 0 then -1 else 1

/-- Closed form of the optimal-policy entry at distance d: none at d = 0,
    the first scanned move 1 in losing states, the winning move
    d % (k+1) otherwise. -/
def polD (k d : Nat) : Option Nat :=
  if d = 0 then none
  else if d % (k + 1) = 0 then some 1 else some (d % (k + 1))

theorem closedFormValue_eq_mvalD (s k N : Nat) :
    closedFormValue s k N = mvalD k (N - s) := rfl

theorem mvalD_cases (k d : Nat) : mvalD k d = -1 ∨ mvalD k d = 1 := by
  unfold mvalD; split <;> simp

theorem mvalD_zero (k : Nat) : mvalD k 0 = -1 := by simp [mvalD]

theorem mvalD_of_mod_eq (k d : Nat) (h : d % (k + 1) = 0) : mvalD k d = -1 := by
  simp [mvalD, h]

theorem mvalD_of_mod_ne (k d : Nat) (h : d % (k + 1) ≠ 0) : mvalD k d = 1 := by
  simp [mvalD, h]

/-- Subtracting the remainder lands on a multiple of k + 1. -/
theorem sub_mod_self_mod (k d : Nat) : (d - d % (k + 1)) % (k + 1) = 0 := by
  have h := Nat.div_add_mod d (k + 1)
  have h2 : d - d % (k + 1) = (k + 1) * (d / (k + 1)) := by omega
  rw [h2]
  exact Nat.mul_mod_right _ _

/-- A move i in 1..k that lands on a multiple of k + 1 is the remainder. -/
theorem mod_eq_of_sub_mod_eq_zero (k d i : Nat) (h1 : 1 ≤ i) (hik : i ≤ k)
    (hid : i ≤ d) (h : (d - i) % (k + 1) = 0) : d % (k + 1) = i := by
  obtain ⟨m, hm⟩ := Nat.dvd_of_mod_eq_zero h
  have hd : d = i + (k + 1) * m := by omega
  rw [hd, Nat.add_mul_mod_self_left, Nat.mod_eq_of_lt (by omega)]

/-- From a losing distance (a multiple of k + 1) no move in 1..k reaches
    another multiple of k + 1. -/
theorem sub_mod_ne_zero (k d i : Nat) (h1 : 1 ≤ i) (hik : i ≤ k) (hid : i ≤ d)
    (hd : d % (k + 1) = 0) : (d - i) % (k + 1) ≠ 0 := by
  intro h
  have := mod_eq_of_sub_mod_eq_zero k d i h1 hik hid h
  omega

/-! ### Characterization of the DP table -/

theorem solveSuffix_length (k N d : Nat) : (solveSuffix k N d).length = d + 1 := by
  induction d with
  | zero => rfl
  | succ e ih => simp [solveSuffix, ih]

theorem solveSuffix_getD (k N : Nat) (z : Int × Option Nat) :
    ∀ j d, j ≤ d → (solveSuffix k N d).getD j z = (solveSuffix k N (d - j)).getD 0 z := by
  intro j
  induction j with
  | zero => intro d _; rfl
  | succ i ih =>
    intro d hd
    match d, hd with
    | e + 1, hd =>
      show (solveSuffix k N (e + 1)).getD (i + 1) z = _
      rw [show solveSuffix k N (e + 1) =
            scanMoves (solveSuffix k N e) (N - (e + 1)) N k :: solveSuffix k N e
          from rfl]
      rw [List.getD_cons_succ]
      rw [ih e (by omega)]
      congr 2
      omega

/-- If every candidate value among moves 1..m is -1, the scan keeps the
    first move: result (-1, some 1). -/
theorem scanMoves_allNeg (rest : List (Int × Option Nat)) (s N : Nat) :
    ∀ m, 1 ≤ m → (∀ i, 1 ≤ i → i ≤ m → candVal rest s N i = -1) →
      scanMoves rest s N m = (-1, some 1) := by
  intro m
  induction m with
  | zero => intro hm; omega
  | succ e ih =>
    intro _ hall
    by_cases he : e = 0
    · subst he
      have h1 : candVal rest s N 1 = -1 := hall 1 le_rfl le_rfl
      show scanMoves rest s N 1 = _
      rw [scanMoves]
      simp only [scanMoves, h1]
      norm_num
    · have hprev := ih (by omega) (fun i hi1 hi2 => hall i hi1 (by omega))
      have hval : candVal rest s N (e + 1) = -1 := hall (e + 1) (by omega) le_rfl
      show scanMoves rest s N (e + 1) = _
      rw [scanMoves]
      simp only [hprev, hval]
      norm_num

/-- If the candidate value is 1 exactly at move r in 1..m and -1 at every
    other move, the scan returns (1, some r). -/
theorem scanMoves_uniqueOne (rest : List (Int × Option Nat)) (s N : Nat) :
    ∀ m r, 1 ≤ r → r ≤ m → candVal rest s N r = 1 →
      (∀ i, 1 ≤ i → i ≤ m → i ≠ r → candVal rest s N i = -1) →
      scanMoves rest s N m = (1, some r) := by
  intro m
  induction m with
  | zero => intro r hr1 hr2; omega
  | succ e ih =>
    intro r h1 h2 hr hoth
    by_cases hre : r = e + 1
    · subst hre
      show scanMoves rest s N (e + 1) = _
      rw [scanMoves]
      by_cases he : e = 0
      · subst he
        simp only [scanMoves, hr]
        norm_num
      · have hprev := scanMoves_allNeg rest s N e (by omega)
          (fun i hi1 hi2 => hoth i hi1 (by omega) (by omega))
        simp only [hprev, hr]
        norm_num
    · have hprev := ih r h1 (by omega) hr
        (fun i hi1 hi2 hir => hoth i hi1 (by omega) hir)
      have hval : candVal rest s N (e + 1) = -1 := hoth (e + 1) (by omega) le_rfl (Ne.symm hre)
      show scanMoves rest s N (e + 1) = _
      rw [scanMoves]
      simp only [hprev, hval]
      norm_num

/-- Head of the suffix table: at distance d the entry is exactly the
    closed-form pair (mvalD k d, polD k d). -/
theorem solveSuffix_head (k N : Nat) (hk : 1 ≤ k) :
    ∀ d, d ≤ N → (solveSuffix k N d).getD 0 (0, none) = (mvalD k d, polD k d) := by
  intro d
  induction d using Nat.strong_induction_on with
  | _ d IH =>
    match d with
    | 0 =>
      intro _
      simp [solveSuffix, mvalD, polD]
    | e + 1 =>
      intro hdN
      have hcand : ∀ i, 1 ≤ i → i ≤ k →
          candVal (solveSuffix k N e) (N - (e + 1)) N i =
            if e + 1 < i then -1 else -(mvalD k (e + 1 - i)) := by
        intro i hi1 hik
        unfold candVal
        by_cases hbust : N - (e + 1) + i > N
        · rw [if_pos hbust, if_pos (by omega)]
        · rw [if_neg hbust, if_neg (by omega)]
          rw [solveSuffix_getD k N _ (i - 1) e (by omega)]
          rw [IH (e - (i - 1)) (by omega) (by omega)]
          rw [show e - (i - 1) = e + 1 - i from by omega]
      have hhead : (solveSuffix k N (e + 1)).getD 0 (0, none) =
          scanMoves (solveSuffix k N e) (N - (e + 1)) N k := by
        rw [show solveSuffix k N (e + 1) =
              scanMoves (solveSuffix k N e) (N - (e + 1)) N k :: solveSuffix k N e
            from rfl]
        rfl
      rw [hhead]
      by_cases hmod : (e + 1) % (k + 1) = 0
      · have hall : ∀ i, 1 ≤ i → i ≤ k → candVal (solveSuffix k N e) (N - (e + 1)) N i = -1 := by
          intro i hi1 hik
          rw [hcand i hi1 hik]
          by_cases hle : e + 1 < i
          · rw [if_pos hle]
          · rw [if_neg hle]
            rw [mvalD_of_mod_ne k _ (sub_mod_ne_zero k (e + 1) i hi1 hik (by omega) hmod)]
        rw [scanMoves_allNeg _ _ _ k hk hall]
        rw [mvalD_of_mod_eq k _ hmod]
        simp [polD, hmod]
      · set r := (e + 1) % (k + 1) with hrdef
        have hrk : r ≤ k := by
          have := Nat.mod_lt (e + 1) (show 0 < k + 1 from by omega)
          omega
        have hr1 : 1 ≤ r := by omega
        have hrd : r ≤ e + 1 := Nat.mod_le _ _
        have hone : candVal (solveSuffix k N e) (N - (e + 1)) N r = 1 := by
          rw [hcand r hr1 hrk, if_neg (by omega)]
          rw [mvalD_of_mod_eq k _ (sub_mod_self_mod k (e + 1))]
          norm_num
        have hoth : ∀ i, 1 ≤ i → i ≤ k → i ≠ r →
            candVal (solveSuffix k N e) (N - (e + 1)) N i = -1 := by
          intro i hi1 hik hir
          rw [hcand i hi1 hik]
          by_cases hle : e + 1 < i
          · rw [if_pos hle]
          · rw [if_neg hle]
            have hne : (e + 1 - i) % (k + 1) ≠ 0 := by
              intro h0
              exact hir (mod_eq_of_sub_mod_eq_zero k (e + 1) i hi1 hik (by omega) h0).symm
            rw [mvalD_of_mod_ne k _ hne]
        rw [scanMoves_uniqueOne _ _ _ k r hr1 hrk hone hoth]
        rw [mvalD_of_mod_ne k _ hmod]
        simp [polD, hmod]

/-- The V table of solve_addition_game is the closed form. -/
theorem solve_V_getD (k N s : Nat) (hk : 1 ≤ k) (hs : s ≤ N) :
    (solve_addition_game k N).V.getD s 0 = mvalD k (N - s) := by
  show ((solveSuffix k N N).map Prod.fst).getD s 0 = _
  rw [show (0 : Int) = Prod.fst ((0 : Int), (none : Option Nat)) from rfl]
  rw [List.getD_map]
  rw [solveSuffix_getD k N _ s N hs]
  rw [solveSuffix_head k N hk (N - s) (by omega)]

/-- The policy table of solve_addition_game is the closed form. -/
theorem solve_policy_getD (k N s : Nat) (hk : 1 ≤ k) (hs : s ≤ N) :
    (solve_addition_game k N).policy.getD s none = polD k (N - s) := by
  show ((solveSuffix k N N).map Prod.snd).getD s none = _
  rw [show (none : Option Nat) = Prod.snd ((0 : Int), (none : Option Nat)) from rfl]
  rw [List.getD_map]
  rw [solveSuffix_getD k N _ s N hs]
  rw [solveSuffix_head k N hk (N - s) (by omega)]

/-! ### Game value to Player I and its Bellman structure -/

/-- Value of the game to Player I at state s when the mover is Player I
    (p = true) or Player II (p = false); the per-mover value is the
    closed form mvalD of the distance N - s.  For s at or past N this is
    the forced-bust value, since mvalD k 0 = -1. -/
def Wval (k N s : Nat) (p : Bool) : Int :=
  if p then mvalD k (N - s) else -(mvalD k (N - s))

theorem Wval_true (k N s : Nat) : Wval k N s true = mvalD k (N - s) := rfl

theorem Wval_false (k N s : Nat) : Wval k N s false = -(mvalD k (N - s)) := rfl

theorem Wval_cases (k N s : Nat) (p : Bool) :
    Wval k N s p = -1 ∨ Wval k N s p = 1 := by
  cases p <;> rcases mvalD_cases k (N - s) with h | h <;>
    simp [Wval_true, Wval_false, h]

theorem Wval_terminal (k N s : Nat) (h : N ≤ s) (p : Bool) :
    Wval k N s p = if p then -1 else 1 := by
  have h0 : N - s = 0 := by omega
  cases p <;> simp [Wval_true, Wval_false, h0, mvalD_zero]

/-- At a MAX node every move candidate is at most the game value. -/
theorem wbarMax_le (k N s i : Nat) (h1 : 1 ≤ i) (hik : i ≤ k) :
    (if s + i ≤ N then Wval k N (s + i) false else -1) ≤ Wval k N s true := by
  rw [Wval_true]
  rcases mvalD_cases k (N - s) with hm | hm
  · rw [hm]
    by_cases hb : s + i ≤ N
    · rw [if_pos hb, Wval_false]
      have h0 : (N - s) % (k + 1) = 0 := by
        by_contra h
        rw [mvalD_of_mod_ne k _ h] at hm
        omega
      have hne : (N - (s + i)) % (k + 1) ≠ 0 := by
        rw [show N - (s + i) = N - s - i from by omega]
        exact sub_mod_ne_zero k (N - s) i h1 hik (by omega) h0
      rw [mvalD_of_mod_ne k _ hne]
    · rw [if_neg hb]
  · rw [hm]
    by_cases hb : s + i ≤ N
    · rw [if_pos hb, Wval_false]
      rcases mvalD_cases k (N - (s + i)) with h2 | h2 <;> rw [h2] <;> norm_num
    · rw [if_neg hb]
      norm_num

/-- At a MAX node some move candidate attains the game value. -/
theorem wbarMax_exists (k N s : Nat) (hk : 1 ≤ k) (hs : s < N) :
    ∃ i, 1 ≤ i ∧ i ≤ k ∧
      (if s + i ≤ N then Wval k N (s + i) false else -1) = Wval k N s true := by
  rw [Wval_true]
  by_cases h0 : (N - s) % (k + 1) = 0
  · refine ⟨1, le_rfl, hk, ?_⟩
    rw [mvalD_of_mod_eq k _ h0, if_pos (by omega), Wval_false]
    have hne : (N - (s + 1)) % (k + 1) ≠ 0 := by
      rw [show N - (s + 1) = N - s - 1 from by omega]
      exact sub_mod_ne_zero k (N - s) 1 le_rfl hk (by omega) h0
    rw [mvalD_of_mod_ne k _ hne]
  · set r := (N - s) % (k + 1) with hrdef
    have hrk : r ≤ k := by
      have := Nat.mod_lt (N - s) (show 0 < k + 1 from by omega)
      omega
    have hr1 : 1 ≤ r := by omega
    have hrd : r ≤ N - s := Nat.mod_le _ _
    refine ⟨r, hr1, hrk, ?_⟩
    rw [mvalD_of_mod_ne k _ h0, if_pos (by omega), Wval_false]
    have heq : (N - (s + r)) % (k + 1) = 0 := by
      rw [show N - (s + r) = N - s - r from by omega]
      exact sub_mod_self_mod k (N - s)
    rw [mvalD_of_mod_eq k _ heq]
    norm_num

/-- At a MIN node every move candidate is at least the game value. -/
theorem wbarMin_ge (k N s i : Nat) (h1 : 1 ≤ i) (hik : i ≤ k) :
    Wval k N s false ≤ (if s + i ≤ N then Wval k N (s + i) true else 1) := by
  rw [Wval_false]
  rcases mvalD_cases k (N - s) with hm | hm
  · rw [hm]
    by_cases hb : s + i ≤ N
    · rw [if_pos hb, Wval_true]
      have h0 : (N - s) % (k + 1) = 0 := by
        by_contra h
        rw [mvalD_of_mod_ne k _ h] at hm
        omega
      have hne : (N - (s + i)) % (k + 1) ≠ 0 := by
        rw [show N - (s + i) = N - s - i from by omega]
        exact sub_mod_ne_zero k (N - s) i h1 hik (by omega) h0
      rw [mvalD_of_mod_ne k _ hne]
      norm_num
    · rw [if_neg hb]
      norm_num
  · rw [hm]
    by_cases hb : s + i ≤ N
    · rw [if_pos hb, Wval_true]
      rcases mvalD_cases k (N - (s + i)) with h2 | h2 <;> rw [h2] <;> norm_num
    · rw [if_neg hb]
      norm_num

/-- At a MIN node some move candidate attains the game value. -/
theorem wbarMin_exists (k N s : Nat) (hk : 1 ≤ k) (hs : s < N) :
    ∃ i, 1 ≤ i ∧ i ≤ k ∧
      (if s + i ≤ N then Wval k N (s + i) true else 1) = Wval k N s false := by
  rw [Wval_false]
  by_cases h0 : (N - s) % (k + 1) = 0
  · refine ⟨1, le_rfl, hk, ?_⟩
    rw [mvalD_of_mod_eq k _ h0, if_pos (by omega), Wval_true]
    have hne : (N - (s + 1)) % (k + 1) ≠ 0 := by
      rw [show N - (s + 1) = N - s - 1 from by omega]
      exact sub_mod_ne_zero k (N - s) 1 le_rfl hk (by omega) h0
    rw [mvalD_of_mod_ne k _ hne]
    norm_num
  · set r := (N - s) % (k + 1) with hrdef
    have hrk : r ≤ k := by
      have := Nat.mod_lt (N - s) (show 0 < k + 1 from by omega)
      omega
    have hr1 : 1 ≤ r := by omega
    have hrd : r ≤ N - s := Nat.mod_le _ _
    refine ⟨r, hr1, hrk, ?_⟩
    rw [mvalD_of_mod_ne k _ h0, if_pos (by omega), Wval_true]
    have heq : (N - (s + r)) % (k + 1) = 0 := by
      rw [show N - (s + r) = N - s - r from by omega]
      exact sub_mod_self_mod k (N - s)
    rw [mvalD_of_mod_eq k _ heq]

/-! ### Unfolding equations for the searchers -/

theorem minimax_tree_terminal (k N s : Nat) (p : Bool) (h : s ≥ N) :
    minimax_tree k N s p = (if p then -1 else 1, 1) := by
  rw [minimax_tree, if_pos h]

theorem minimax_tree_max (k N s : Nat) (h : ¬ s ≥ N) :
    minimax_tree k N s true =
      ((mmMaxLoop k N s 0 (-2)).1, (mmMaxLoop k N s 0 (-2)).2 + 1) := by
  rw [minimax_tree, if_neg h]
  simp

theorem minimax_tree_min (k N s : Nat) (h : ¬ s ≥ N) :
    minimax_tree k N s false =
      ((mmMinLoop k N s 0 2).1, (mmMinLoop k N s 0 2).2 + 1) := by
  rw [minimax_tree, if_neg h]
  simp

theorem mmMaxLoop_stop (k N s j : Nat) (best : Int) (h : j ≥ k) :
    mmMaxLoop k N s j best = (best, 0) := by
  rw [mmMaxLoop, if_pos h]

theorem mmMaxLoop_step (k N s j : Nat) (best : Int) (h : ¬ j ≥ k) :
    mmMaxLoop k N s j best =
      ((mmMaxLoop k N s (j + 1)
          (max best (if s + (j + 1) ≤ N then (minimax_tree k N (s + (j + 1)) false).1 else -1))).1,
        (if s + (j + 1) ≤ N then (minimax_tree k N (s + (j + 1)) false).2 else 0) +
        (mmMaxLoop k N s (j + 1)
          (max best (if s + (j + 1) ≤ N then (minimax_tree k N (s + (j + 1)) false).1 else -1))).2) := by
  rw [mmMaxLoop, if_neg h]
  by_cases h2 : s + (j + 1) ≤ N
  · simp only [dif_pos h2, if_pos h2]
  · simp only [dif_neg h2, if_neg h2]

theorem mmMinLoop_stop (k N s j : Nat) (best : Int) (h : j ≥ k) :
    mmMinLoop k N s j best = (best, 0) := by
  rw [mmMinLoop, if_pos h]

theorem mmMinLoop_step (k N s j : Nat) (best : Int) (h : ¬ j ≥ k) :
    mmMinLoop k N s j best =
      ((mmMinLoop k N s (j + 1)
          (min best (if s + (j + 1) ≤ N then (minimax_tree k N (s + (j + 1)) true).1 else 1))).1,
        (if s + (j + 1) ≤ N then (minimax_tree k N (s + (j + 1)) true).2 else 0) +
        (mmMinLoop k N s (j + 1)
          (min best (if s + (j + 1) ≤ N then (minimax_tree k N (s + (j + 1)) true).1 else 1))).2) := by
  rw [mmMinLoop, if_neg h]
  by_cases h2 : s + (j + 1) ≤ N
  · simp only [dif_pos h2, if_pos h2]
  · simp only [dif_neg h2, if_neg h2]

/-! ### Value of the plain minimax search -/

/-- MAX-loop fold: if every remaining candidate is at most W, the running
    best is at most W, and W is attained by the running best or by a
    remaining candidate, the loop returns W. -/
theorem mmMaxLoop_val (k N s : Nat) (W : Int) :
    ∀ n j best, k - j ≤ n →
      (∀ i, j < i → i ≤ k →
        (if s + i ≤ N then (minimax_tree k N (s + i) false).1 else -1) ≤ W) →
      best ≤ W →
      (best = W ∨ ∃ i, j < i ∧ i ≤ k ∧
        (if s + i ≤ N then (minimax_tree k N (s + i) false).1 else -1) = W) →
      (mmMaxLoop k N s j best).1 = W := by
  intro n
  induction n with
  | zero =>
    intro j best hn hle hb hach
    rw [mmMaxLoop_stop k N s j best (by omega)]
    rcases hach with h | ⟨i, hji, hik, _⟩
    · exact h
    · omega
  | succ n ih =>
    intro j best hn hle hb hach
    by_cases hjk : j ≥ k
    · rw [mmMaxLoop_stop k N s j best hjk]
      rcases hach with h | ⟨i, hji, hik, _⟩
      · exact h
      · omega
    · rw [mmMaxLoop_step k N s j best hjk]
      apply ih (j + 1) _ (by omega) (fun i h1 h2 => hle i (by omega) h2)
      · exact max_le hb (hle (j + 1) (by omega) (by omega))
      · rcases hach with h | ⟨i, hji, hik, hiv⟩
        · left
          have := hle (j + 1) (by omega) (by omega)
          omega
        · by_cases hij : i = j + 1
          · left
            subst hij
            rw [hiv]
            have := hb
            omega
          · right
            exact ⟨i, by omega, hik, hiv⟩

/-- MIN-loop fold, mirror image. -/
theorem mmMinLoop_val (k N s : Nat) (W : Int) :
    ∀ n j best, k - j ≤ n →
      (∀ i, j < i → i ≤ k →
        W ≤ (if s + i ≤ N then (minimax_tree k N (s + i) true).1 else 1)) →
      W ≤ best →
      (best = W ∨ ∃ i, j < i ∧ i ≤ k ∧
        (if s + i ≤ N then (minimax_tree k N (s + i) true).1 else 1) = W) →
      (mmMinLoop k N s j best).1 = W := by
  intro n
  induction n with
  | zero =>
    intro j best hn hle hb hach
    rw [mmMinLoop_stop k N s j best (by omega)]
    rcases hach with h | ⟨i, hji, hik, _⟩
    · exact h
    · omega
  | succ n ih =>
    intro j best hn hle hb hach
    by_cases hjk : j ≥ k
    · rw [mmMinLoop_stop k N s j best hjk]
      rcases hach with h | ⟨i, hji, hik, _⟩
      · exact h
      · omega
    · rw [mmMinLoop_step k N s j best hjk]
      apply ih (j + 1) _ (by omega) (fun i h1 h2 => hle i (by omega) h2)
      · exact le_min hb (hle (j + 1) (by omega) (by omega))
      · rcases hach with h | ⟨i, hji, hik, hiv⟩
        · left
          have := hle (j + 1) (by omega) (by omega)
          omega
        · by_cases hij : i = j + 1
          · left
            subst hij
            rw [hiv]
            have := hb
            omega
          · right
            exact ⟨i, by omega, hik, hiv⟩

/-- The plain minimax search computes the closed-form game value to
    Player I at every state, for either mover. -/
theorem minimax_tree_val (k N : Nat) (hk : 1 ≤ k) :
    ∀ n s p, N - s ≤ n → (minimax_tree k N s p).1 = Wval k N s p := by
  intro n
  induction n with
  | zero =>
    intro s p hs
    rw [minimax_tree_terminal k N s p (by omega), Wval_terminal k N s (by omega) p]
  | succ n ih =>
    intro s p hs
    by_cases hterm : s ≥ N
    · rw [minimax_tree_terminal k N s p hterm, Wval_terminal k N s hterm p]
    · have hsN : s < N := by omega
      have hcand : ∀ i, 1 ≤ i → i ≤ k →
          (if s + i ≤ N then (minimax_tree k N (s + i) false).1 else -1) =
          (if s + i ≤ N then Wval k N (s + i) false else -1) := by
        intro i h1 h2
        by_cases hb : s + i ≤ N
        · rw [if_pos hb, if_pos hb, ih (s + i) false (by omega)]
        · rw [if_neg hb, if_neg hb]
      have hcand' : ∀ i, 1 ≤ i → i ≤ k →
          (if s + i ≤ N then (minimax_tree k N (s + i) true).1 else 1) =
          (if s + i ≤ N then Wval k N (s + i) true else 1) := by
        intro i h1 h2
        by_cases hb : s + i ≤ N
        · rw [if_pos hb, if_pos hb, ih (s + i) true (by omega)]
        · rw [if_neg hb, if_neg hb]
      cases p
      · rw [minimax_tree_min k N s hterm]
        show (mmMinLoop k N s 0 2).1 = _
        apply mmMinLoop_val k N s _ k 0 2 (by omega)
        · intro i h1 h2
          rw [hcand' i (by omega) h2]
          exact wbarMin_ge k N s i (by omega) h2
        · rcases Wval_cases k N s false with h | h <;> omega
        · right
          obtain ⟨i, h1, h2, h3⟩ := wbarMin_exists k N s hk hsN
          exact ⟨i, by omega, h2, by rw [hcand' i h1 h2]; exact h3⟩
      · rw [minimax_tree_max k N s hterm]
        show (mmMaxLoop k N s 0 (-2)).1 = _
        apply mmMaxLoop_val k N s _ k 0 (-2) (by omega)
        · intro i h1 h2
          rw [hcand i (by omega) h2]
          exact wbarMax_le k N s i (by omega) h2
        · rcases Wval_cases k N s true with h | h <;> omega
        · right
          obtain ⟨i, h1, h2, h3⟩ := wbarMax_exists k N s hk hsN
          exact ⟨i, by omega, h2, by rw [hcand i h1 h2]; exact h3⟩

/-- Wrapper: the plain minimax value at any state. -/
theorem minimax_tree_value (k N s : Nat) (hk : 1 ≤ k) (p : Bool) :
    (minimax_tree k N s p).1 = Wval k N s p :=
  minimax_tree_val k N hk (N - s) s p le_rfl

/-! ### Alpha-beta search: unfolding equations and value range -/

/-- Proof abbreviation: the (value, nodes) pair the ab MAX loop inspects
    at move i, for the window (alpha, beta) current at that instant. -/
def abCandMax (k N s i : Nat) (alpha beta : Int) : Int × Nat :=
  if s + i > N then (-1, 0) else minimax_ab_tree k N (s + i) false alpha beta

/-- Proof abbreviation, MIN-side candidate. -/
def abCandMin (k N s i : Nat) (alpha beta : Int) : Int × Nat :=
  if s + i > N then (1, 0) else minimax_ab_tree k N (s + i) true alpha beta

theorem minimax_ab_terminal (k N s : Nat) (p : Bool) (alpha beta : Int)
    (h : s ≥ N) : minimax_ab_tree k N s p alpha beta = (if p then -1 else 1, 1) := by
  rw [minimax_ab_tree, if_pos h]

theorem minimax_ab_max (k N s : Nat) (alpha beta : Int) (h : ¬ s ≥ N) :
    minimax_ab_tree k N s true alpha beta =
      ((abMaxLoop k N s 0 (-2) alpha beta).1,
       (abMaxLoop k N s 0 (-2) alpha beta).2 + 1) := by
  rw [minimax_ab_tree, if_neg h]
  simp

theorem minimax_ab_min (k N s : Nat) (alpha beta : Int) (h : ¬ s ≥ N) :
    minimax_ab_tree k N s false alpha beta =
      ((abMinLoop k N s 0 2 alpha beta).1,
       (abMinLoop k N s 0 2 alpha beta).2 + 1) := by
  rw [minimax_ab_tree, if_neg h]
  simp

theorem abMaxLoop_stop (k N s j : Nat) (best alpha beta : Int) (h : j ≥ k) :
    abMaxLoop k N s j best alpha beta = (best, 0) := by
  rw [abMaxLoop, if_pos h]

theorem abMaxLoop_step (k N s j : Nat) (best alpha beta : Int) (h : ¬ j ≥ k) :
    abMaxLoop k N s j best alpha beta =
      (if max alpha (max best (abCandMax k N s (j + 1) alpha beta).1) ≥ beta
       then (max best (abCandMax k N s (j + 1) alpha beta).1,
             (abCandMax k N s (j + 1) alpha beta).2)
       else ((abMaxLoop k N s (j + 1) (max best (abCandMax k N s (j + 1) alpha beta).1)
               (max alpha (max best (abCandMax k N s (j + 1) alpha beta).1)) beta).1,
             (abCandMax k N s (j + 1) alpha beta).2 +
             (abMaxLoop k N s (j + 1) (max best (abCandMax k N s (j + 1) alpha beta).1)
               (max alpha (max best (abCandMax k N s (j + 1) alpha beta).1)) beta).2)) := by
  rw [abMaxLoop, if_neg h]
  unfold abCandMax
  by_cases h2 : s + (j + 1) > N
  · simp only [dif_pos h2, if_pos h2]
  · simp only [dif_neg h2, if_neg h2]

theorem abMinLoop_stop (k N s j : Nat) (best alpha beta : Int) (h : j ≥ k) :
    abMinLoop k N s j best alpha beta = (best, 0) := by
  rw [abMinLoop, if_pos h]

theorem abMinLoop_step (k N s j : Nat) (best alpha beta : Int) (h : ¬ j ≥ k) :
    abMinLoop k N s j best alpha beta =
      (if alpha ≥ min beta (min best (abCandMin k N s (j + 1) alpha beta).1)
       then (min best (abCandMin k N s (j + 1) alpha beta).1,
             (abCandMin k N s (j + 1) alpha beta).2)
       else ((abMinLoop k N s (j + 1) (min best (abCandMin k N s (j + 1) alpha beta).1)
               alpha (min beta (min best (abCandMin k N s (j + 1) alpha beta).1))).1,
             (abCandMin k N s (j + 1) alpha beta).2 +
             (abMinLoop k N s (j + 1) (min best (abCandMin k N s (j + 1) alpha beta).1)
               alpha (min beta (min best (abCandMin k N s (j + 1) alpha beta).1))).2)) := by
  rw [abMinLoop, if_neg h]
  unfold abCandMin
  by_cases h2 : s + (j + 1) > N
  · simp only [dif_pos h2, if_pos h2]
  · simp only [dif_neg h2, if_neg h2]

/-- The running best of the ab MAX loop only grows. -/
theorem abMaxLoop_ge (k N s : Nat) :
    ∀ n j best alpha beta, k - j ≤ n →
      best ≤ (abMaxLoop k N s j best alpha beta).1 := by
  intro n
  induction n with
  | zero =>
    intro j best alpha beta hn
    rw [abMaxLoop_stop k N s j best alpha beta (by omega)]
  | succ n ih =>
    intro j best alpha beta hn
    by_cases hjk : j ≥ k
    · rw [abMaxLoop_stop k N s j best alpha beta hjk]
    · rw [abMaxLoop_step k N s j best alpha beta hjk]
      by_cases hbr : max alpha (max best (abCandMax k N s (j + 1) alpha beta).1) ≥ beta
      · rw [if_pos hbr]
        exact le_max_left _ _
      · rw [if_neg hbr]
        calc best ≤ max best (abCandMax k N s (j + 1) alpha beta).1 := le_max_left _ _
          _ ≤ _ := ih (j + 1) _ _ _ (by omega)

/-- The running best of the ab MIN loop only shrinks. -/
theorem abMinLoop_le (k N s : Nat) :
    ∀ n j best alpha beta, k - j ≤ n →
      (abMinLoop k N s j best alpha beta).1 ≤ best := by
  intro n
  induction n with
  | zero =>
    intro j best alpha beta hn
    rw [abMinLoop_stop k N s j best alpha beta (by omega)]
  | succ n ih =>
    intro j best alpha beta hn
    by_cases hjk : j ≥ k
    · rw [abMinLoop_stop k N s j best alpha beta hjk]
    · rw [abMinLoop_step k N s j best alpha beta hjk]
      by_cases hbr : alpha ≥ min beta (min best (abCandMin k N s (j + 1) alpha beta).1)
      · rw [if_pos hbr]
        exact min_le_left _ _
      · rw [if_neg hbr]
        calc (abMinLoop k N s (j + 1) _ _ _).1
            ≤ min best (abCandMin k N s (j + 1) alpha beta).1 := ih (j + 1) _ _ _ (by omega)
          _ ≤ best := min_le_left _ _

/-- Every value returned by the alpha-beta search lies in {-1, 1}. -/
theorem ab_val_mem (k N : Nat) (hk : 1 ≤ k) :
    ∀ n s p alpha beta, N - s ≤ n →
      (minimax_ab_tree k N s p alpha beta).1 = -1 ∨
      (minimax_ab_tree k N s p alpha beta).1 = 1 := by
  intro n
  induction n with
  | zero =>
    intro s p alpha beta hs
    rw [minimax_ab_terminal k N s p alpha beta (by omega)]
    cases p <;> simp
  | succ n ih =>
    intro s p alpha beta hs
    by_cases hterm : s ≥ N
    · rw [minimax_ab_terminal k N s p alpha beta hterm]
      cases p <;> simp
    · have hcandM : ∀ i alpha' beta', 1 ≤ i →
          (abCandMax k N s i alpha' beta').1 = -1 ∨
          (abCandMax k N s i alpha' beta').1 = 1 := by
        intro i alpha' beta' h1
        unfold abCandMax
        by_cases hb : s + i > N
        · rw [if_pos hb]
          left
          rfl
        · rw [if_neg hb]
          exact ih (s + i) false alpha' beta' (by omega)
      have hcandm : ∀ i alpha' beta', 1 ≤ i →
          (abCandMin k N s i alpha' beta').1 = -1 ∨
          (abCandMin k N s i alpha' beta').1 = 1 := by
        intro i alpha' beta' h1
        unfold abCandMin
        by_cases hb : s + i > N
        · rw [if_pos hb]
          right
          rfl
        · rw [if_neg hb]
          exact ih (s + i) true alpha' beta' (by omega)
      cases p
      · rw [minimax_ab_min k N s alpha beta hterm]
        show (abMinLoop k N s 0 2 alpha beta).1 = -1 ∨ _ = 1
        have main : ∀ m j best beta', k - j ≤ m → j < k →
            best = 2 ∨ best = -1 ∨ best = 1 →
            (abMinLoop k N s j best alpha beta').1 = -1 ∨
            (abMinLoop k N s j best alpha beta').1 = 1 := by
          intro m
          induction m with
          | zero => intro j best beta' h1 h2 h3; omega
          | succ m ihm =>
            intro j best beta' h1 h2 hb
            rw [abMinLoop_step k N s j best alpha beta' (by omega)]
            have hc := hcandm (j + 1) alpha beta' (by omega)
            by_cases hbr : alpha ≥ min beta' (min best (abCandMin k N s (j + 1) alpha beta').1)
            · rw [if_pos hbr]
              dsimp only
              rcases hc with hc | hc <;> rw [hc] <;>
                rcases hb with h | h | h <;> rw [h] <;> simp
            · rw [if_neg hbr]
              dsimp only
              by_cases hjk2 : j + 1 < k
              · apply ihm (j + 1) _ _ (by omega) hjk2
                rcases hc with hc | hc <;> rw [hc] <;>
                  rcases hb with h | h | h <;> rw [h] <;> simp
              · rw [abMinLoop_stop k N s (j + 1) _ _ _ (by omega)]
                rcases hc with hc | hc <;> rw [hc] <;>
                  rcases hb with h | h | h <;> rw [h] <;> simp
        exact main k 0 2 beta (by omega) (by omega) (Or.inl rfl)
      · rw [minimax_ab_max k N s alpha beta hterm]
        show (abMaxLoop k N s 0 (-2) alpha beta).1 = -1 ∨ _ = 1
        have main : ∀ m j best alpha', k - j ≤ m → j < k →
            best = -2 ∨ best = -1 ∨ best = 1 →
            (abMaxLoop k N s j best alpha' beta).1 = -1 ∨
            (abMaxLoop k N s j best alpha' beta).1 = 1 := by
          intro m
          induction m with
          | zero => intro j best alpha' h1 h2 h3; omega
          | succ m ihm =>
            intro j best alpha' h1 h2 hb
            rw [abMaxLoop_step k N s j best alpha' beta (by omega)]
            have hc := hcandM (j + 1) alpha' beta (by omega)
            by_cases hbr : max alpha' (max best (abCandMax k N s (j + 1) alpha' beta).1) ≥ beta
            · rw [if_pos hbr]
              dsimp only
              rcases hc with hc | hc <;> rw [hc] <;>
                rcases hb with h | h | h <;> rw [h] <;> simp
            · rw [if_neg hbr]
              dsimp only
              by_cases hjk2 : j + 1 < k
              · apply ihm (j + 1) _ _ (by omega) hjk2
                rcases hc with hc | hc <;> rw [hc] <;>
                  rcases hb with h | h | h <;> rw [h] <;> simp
              · rw [abMaxLoop_stop k N s (j + 1) _ _ _ (by omega)]
                rcases hc with hc | hc <;> rw [hc] <;>
                  rcases hb with h | h | h <;> rw [h] <;> simp
        exact main k 0 (-2) alpha (by omega) (by omega) (Or.inl rfl)

/-- Wrapper of ab_val_mem at any state. -/
theorem ab_value_mem (k N s : Nat) (hk : 1 ≤ k) (p : Bool) (alpha beta : Int) :
    (minimax_ab_tree k N s p alpha beta).1 = -1 ∨
    (minimax_ab_tree k N s p alpha beta).1 = 1 :=
  ab_val_mem k N hk (N - s) s p alpha beta le_rfl

/-! ### True candidate values and tail values for the pruned loops -/

/-- True value of the candidate the MAX loop inspects at move i. -/
def wbM (k N s i : Nat) : Int :=
  if s + i > N then -1 else Wval k N (s + i) false

/-- True value of the candidate the MIN loop inspects at move i. -/
def wbm (k N s i : Nat) : Int :=
  if s + i > N then 1 else Wval k N (s + i) true

theorem wbM_eq (k N s i : Nat) :
    wbM k N s i = if s + i ≤ N then Wval k N (s + i) false else -1 := by
  unfold wbM
  by_cases hb : s + i ≤ N
  · rw [if_neg (by omega), if_pos hb]
  · rw [if_pos (by omega), if_neg hb]

theorem wbm_eq (k N s i : Nat) :
    wbm k N s i = if s + i ≤ N then Wval k N (s + i) true else 1 := by
  unfold wbm
  by_cases hb : s + i ≤ N
  · rw [if_neg (by omega), if_pos hb]
  · rw [if_pos (by omega), if_neg hb]

theorem wbM_cases (k N s i : Nat) : wbM k N s i = -1 ∨ wbM k N s i = 1 := by
  unfold wbM
  by_cases hb : s + i > N
  · rw [if_pos hb]
    left
    rfl
  · rw [if_neg hb]
    exact Wval_cases k N (s + i) false

theorem wbm_cases (k N s i : Nat) : wbm k N s i = -1 ∨ wbm k N s i = 1 := by
  unfold wbm
  by_cases hb : s + i > N
  · rw [if_pos hb]
    right
    rfl
  · rw [if_neg hb]
    exact Wval_cases k N (s + i) true

theorem wbM_le (k N s i : Nat) (h1 : 1 ≤ i) (hik : i ≤ k) :
    wbM k N s i ≤ Wval k N s true := by
  rw [wbM_eq]
  exact wbarMax_le k N s i h1 hik

theorem wbM_exists (k N s : Nat) (hk : 1 ≤ k) (hs : s < N) :
    ∃ i, 1 ≤ i ∧ i ≤ k ∧ wbM k N s i = Wval k N s true := by
  obtain ⟨i, h1, h2, h3⟩ := wbarMax_exists k N s hk hs
  exact ⟨i, h1, h2, by rw [wbM_eq]; exact h3⟩

theorem wbm_ge (k N s i : Nat) (h1 : 1 ≤ i) (hik : i ≤ k) :
    Wval k N s false ≤ wbm k N s i := by
  rw [wbm_eq]
  exact wbarMin_ge k N s i h1 hik

theorem wbm_exists (k N s : Nat) (hk : 1 ≤ k) (hs : s < N) :
    ∃ i, 1 ≤ i ∧ i ≤ k ∧ wbm k N s i = Wval k N s false := by
  obtain ⟨i, h1, h2, h3⟩ := wbarMin_exists k N s hk hs
  exact ⟨i, h1, h2, by rw [wbm_eq]; exact h3⟩

/-- Max of the true candidate values over the moves still to be scanned
    by the MAX loop (moves j+1 .. k); -2 when none remain. -/
def tailMaxW (k N s j : Nat) : Int :=
  if j ≥ k then -2
  else max (wbM k N s (j + 1)) (tailMaxW k N s (j + 1))
termination_by k - j

/-- Min of the true candidate values over the moves still to be scanned
    by the MIN loop; 2 when none remain. -/
def tailMinW (k N s j : Nat) : Int :=
  if j ≥ k then 2
  else min (wbm k N s (j + 1)) (tailMinW k N s (j + 1))
termination_by k - j

theorem tailMaxW_stop (k N s j : Nat) (h : j ≥ k) : tailMaxW k N s j = -2 := by
  rw [tailMaxW, if_pos h]

theorem tailMaxW_step (k N s j : Nat) (h : ¬ j ≥ k) :
    tailMaxW k N s j = max (wbM k N s (j + 1)) (tailMaxW k N s (j + 1)) := by
  rw [tailMaxW]
  rw [if_neg h]

theorem tailMinW_stop (k N s j : Nat) (h : j ≥ k) : tailMinW k N s j = 2 := by
  rw [tailMinW, if_pos h]

theorem tailMinW_step (k N s j : Nat) (h : ¬ j ≥ k) :
    tailMinW k N s j = min (wbm k N s (j + 1)) (tailMinW k N s (j + 1)) := by
  rw [tailMinW]
  rw [if_neg h]

theorem tailMaxW_ge (k N s : Nat) :
    ∀ n j i, k - j ≤ n → j < i → i ≤ k → wbM k N s i ≤ tailMaxW k N s j := by
  intro n
  induction n with
  | zero => intro j i hn hj hi; omega
  | succ n ih =>
    intro j i hn hj hi
    rw [tailMaxW_step k N s j (by omega)]
    by_cases hij : i = j + 1
    · subst hij
      exact le_max_left _ _
    · exact le_trans (ih (j + 1) i (by omega) (by omega) hi) (le_max_right _ _)

theorem tailMinW_le (k N s : Nat) :
    ∀ n j i, k - j ≤ n → j < i → i ≤ k → tailMinW k N s j ≤ wbm k N s i := by
  intro n
  induction n with
  | zero => intro j i hn hj hi; omega
  | succ n ih =>
    intro j i hn hj hi
    rw [tailMinW_step k N s j (by omega)]
    by_cases hij : i = j + 1
    · subst hij
      exact min_le_left _ _
    · exact le_trans (min_le_right _ _) (ih (j + 1) i (by omega) (by omega) hi)

theorem tailMaxW_le_W (k N s : Nat) :
    ∀ n j, k - j ≤ n → tailMaxW k N s j ≤ Wval k N s true := by
  intro n
  induction n with
  | zero =>
    intro j hn
    rw [tailMaxW_stop k N s j (by omega)]
    rcases Wval_cases k N s true with h | h <;> omega
  | succ n ih =>
    intro j hn
    by_cases hjk : j ≥ k
    · rw [tailMaxW_stop k N s j hjk]
      rcases Wval_cases k N s true with h | h <;> omega
    · rw [tailMaxW_step k N s j hjk]
      exact max_le (wbM_le k N s (j + 1) (by omega) (by omega)) (ih (j + 1) (by omega))

theorem tailMinW_ge_W (k N s : Nat) :
    ∀ n j, k - j ≤ n → Wval k N s false ≤ tailMinW k N s j := by
  intro n
  induction n with
  | zero =>
    intro j hn
    rw [tailMinW_stop k N s j (by omega)]
    rcases Wval_cases k N s false with h | h <;> omega
  | succ n ih =>
    intro j hn
    by_cases hjk : j ≥ k
    · rw [tailMinW_stop k N s j hjk]
      rcases Wval_cases k N s false with h | h <;> omega
    · rw [tailMinW_step k N s j hjk]
      exact le_min (wbm_ge k N s (j + 1) (by omega) (by omega)) (ih (j + 1) (by omega))

/-- The full tail from move 1 is exactly the game value at a MAX node. -/
theorem tailMaxW_zero (k N s : Nat) (hk : 1 ≤ k) (hs : s < N) :
    tailMaxW k N s 0 = Wval k N s true := by
  apply le_antisymm (tailMaxW_le_W k N s k 0 (by omega))
  obtain ⟨i, h1, h2, h3⟩ := wbM_exists k N s hk hs
  rw [← h3]
  exact tailMaxW_ge k N s k 0 i (by omega) (by omega) h2

/-- The full tail from move 1 is exactly the game value at a MIN node. -/
theorem tailMinW_zero (k N s : Nat) (hk : 1 ≤ k) (hs : s < N) :
    tailMinW k N s 0 = Wval k N s false := by
  apply le_antisymm _ (tailMinW_ge_W k N s k 0 (by omega))
  obtain ⟨i, h1, h2, h3⟩ := wbm_exists k N s hk hs
  rw [← h3]
  exact tailMinW_le k N s k 0 i (by omega) (by omega) h2

/-! ### Knuth-Moore trichotomy for the fail-soft alpha-beta search -/

/-- How a fail-soft alpha-beta result r relates to the true value w
    within the window (alpha, beta): a fail-low result is an upper bound
    on w, a fail-high result a lower bound, an inside result exact. -/
def KMrel (alpha beta r w : Int) : Prop :=
  (r ≤ alpha → w ≤ r) ∧ (beta ≤ r → r ≤ w) ∧ (alpha < r → r < beta → r = w)

theorem KMrel_refl (alpha beta r : Int) : KMrel alpha beta r r :=
  ⟨fun _ => le_rfl, fun _ => le_rfl, fun _ _ => rfl⟩

theorem abCandMax_bust (k N s i : Nat) (alpha beta : Int) (hb : s + i > N) :
    abCandMax k N s i alpha beta = (-1, 0) := by
  unfold abCandMax
  rw [if_pos hb]

theorem abCandMax_rec (k N s i : Nat) (alpha beta : Int) (hb : ¬ s + i > N) :
    abCandMax k N s i alpha beta = minimax_ab_tree k N (s + i) false alpha beta := by
  unfold abCandMax
  rw [if_neg hb]

theorem abCandMin_bust (k N s i : Nat) (alpha beta : Int) (hb : s + i > N) :
    abCandMin k N s i alpha beta = (1, 0) := by
  unfold abCandMin
  rw [if_pos hb]

theorem abCandMin_rec (k N s i : Nat) (alpha beta : Int) (hb : ¬ s + i > N) :
    abCandMin k N s i alpha beta = minimax_ab_tree k N (s + i) true alpha beta := by
  unfold abCandMin
  rw [if_neg hb]

theorem abCandMax_val_mem (k N s i : Nat) (hk : 1 ≤ k) (alpha beta : Int) :
    (abCandMax k N s i alpha beta).1 = -1 ∨ (abCandMax k N s i alpha beta).1 = 1 := by
  by_cases hb : s + i > N
  · rw [abCandMax_bust k N s i alpha beta hb]
    left
    rfl
  · rw [abCandMax_rec k N s i alpha beta hb]
    exact ab_value_mem k N (s + i) hk false alpha beta

theorem abCandMin_val_mem (k N s i : Nat) (hk : 1 ≤ k) (alpha beta : Int) :
    (abCandMin k N s i alpha beta).1 = -1 ∨ (abCandMin k N s i alpha beta).1 = 1 := by
  by_cases hb : s + i > N
  · rw [abCandMin_bust k N s i alpha beta hb]
    right
    rfl
  · rw [abCandMin_rec k N s i alpha beta hb]
    exact ab_value_mem k N (s + i) hk true alpha beta

/-- MAX-loop part of the Knuth-Moore induction.  The state invariants of
    the loop are best <= alpha and -2 <= best, and the tail value of the
    remaining moves combines with best into the reference value. -/
theorem abMaxLoopKM (k N s : Nat) (beta : Int) (hk : 1 ≤ k)
    (hbeta : beta ≤ 2)
    (SIH : ∀ s' p alpha' beta', N - s' < N - s → -2 ≤ alpha' → beta' ≤ 2 →
      alpha' < beta' →
      KMrel alpha' beta' (minimax_ab_tree k N s' p alpha' beta').1 (Wval k N s' p)) :
    ∀ n j best alpha, k - j ≤ n → -2 ≤ best → best ≤ alpha → alpha < beta →
      KMrel alpha beta (abMaxLoop k N s j best alpha beta).1
        (max best (tailMaxW k N s j)) := by
  intro n
  induction n with
  | zero =>
    intro j best alpha hn hb2 hba hab
    rw [abMaxLoop_stop k N s j best alpha beta (by omega)]
    rw [tailMaxW_stop k N s j (by omega)]
    rw [max_eq_left (by omega)]
    exact KMrel_refl alpha beta best
  | succ n ih =>
    intro j best alpha hn hb2 hba hab
    by_cases hjk : j ≥ k
    · rw [abMaxLoop_stop k N s j best alpha beta hjk]
      rw [tailMaxW_stop k N s j hjk]
      rw [max_eq_left (by omega)]
      exact KMrel_refl alpha beta best
    · rw [abMaxLoop_step k N s j best alpha beta hjk]
      rw [tailMaxW_step k N s j hjk]
      set v := (abCandMax k N s (j + 1) alpha beta).1 with hvdef
      set w := wbM k N s (j + 1) with hwdef
      set T := tailMaxW k N s (j + 1) with hTdef
      have htri : KMrel alpha beta v w := by
        by_cases hb : s + (j + 1) > N
        · rw [hvdef, hwdef, abCandMax_bust k N s (j + 1) alpha beta hb]
          unfold wbM
          rw [if_pos hb]
          exact KMrel_refl alpha beta (-1)
        · rw [hvdef, hwdef, abCandMax_rec k N s (j + 1) alpha beta hb]
          unfold wbM
          rw [if_neg hb]
          exact SIH (s + (j + 1)) false alpha beta (by omega) (by omega) hbeta hab
      obtain ⟨tA, tB, tC⟩ := htri
      have hv : v = -1 ∨ v = 1 := abCandMax_val_mem k N s (j + 1) hk alpha beta
      have hw : w = -1 ∨ w = 1 := wbM_cases k N s (j + 1)
      have hwT : w ≤ max w T := le_max_left _ _
      by_cases hbr : max alpha (max best v) ≥ beta
      · rw [if_pos hbr]
        dsimp only
        -- the break: best2 = v >= beta, so the child failed high: v <= w
        have hvbeta : beta ≤ v := by
          rcases max_choice alpha (max best v) with h | h
          · omega
          · rcases max_choice best v with h2 | h2 <;> omega
        have hvw : v ≤ w := tB hvbeta
        have hbv : max best v = v := max_eq_right (by omega)
        rw [hbv]
        refine ⟨fun h => by omega, fun _ => ?_, fun h h2 => by omega⟩
        calc v ≤ w := hvw
          _ ≤ max w T := hwT
          _ ≤ max best (max w T) := le_max_right _ _
      · rw [if_neg hbr]
        dsimp only
        -- no break: alpha2 < beta, in particular v < beta, so v is exact
        -- or failed low; either way w <= v
        have hvlt : v < beta := by
          have h1 : max best v ≤ max alpha (max best v) := le_max_right _ _
          have h2 : v ≤ max best v := le_max_right _ _
          omega
        have hwv : w ≤ v := by
          by_cases hva : v ≤ alpha
          · exact tA hva
          · rw [tC (by omega) hvlt]
        have hvw_eq : alpha < v → v = w := fun h => tC h hvlt
        have hIH := ih (j + 1) (max best v) (max alpha (max best v)) (by omega)
          (le_trans hb2 (le_max_left _ _)) (le_max_right _ _) (by omega)
        obtain ⟨iA, iB, iC⟩ := hIH
        set r2 := (abMaxLoop k N s (j + 1) (max best v)
          (max alpha (max best v)) beta).1 with hr2def
        have hr2ge : max best v ≤ r2 := abMaxLoop_ge k N s k (j + 1) _ _ _ (by omega)
        -- abbreviations for the max facts omega needs
        have m1 := le_max_left best v
        have m2 := le_max_right best v
        have m3 := max_choice best v
        have m4 := le_max_left alpha (max best v)
        have m5 := le_max_right alpha (max best v)
        have m6 := max_choice alpha (max best v)
        have m7 := le_max_left best (max w T)
        have m8 := le_max_right best (max w T)
        have m9 := max_choice best (max w T)
        have m10 := le_max_left w T
        have m11 := le_max_right w T
        have m12 := max_choice w T
        have m13 := le_max_left (max best v) T
        have m14 := le_max_right (max best v) T
        have m15 := max_choice (max best v) T
        refine ⟨fun h => ?_, fun h => ?_, fun h h2 => ?_⟩
        · -- fail low: r2 <= alpha <= alpha2, child IH gives W' <= r2
          have hiA := iA (by omega)
          omega
        · -- fail high: beta <= r2, child IH gives r2 <= W'
          have hiB := iB h
          omega
        · -- exact: alpha < r2 < beta
          by_cases hcase : r2 ≤ max alpha (max best v)
          · have hiA := iA hcase
            -- r2 = max best v
            have hr2eq : r2 = max best v := by omega
            rcases m3 with h3 | h3
            · omega
            · have hvw := hvw_eq (by omega)
              omega
          · have hiC := iC (by omega) h2
            rcases m15 with h15 | h15
            · rcases m3 with h3 | h3
              · omega
              · have hvw := hvw_eq (by omega)
                omega
            · omega

/-- MIN-loop part of the Knuth-Moore induction, mirror image. -/
theorem abMinLoopKM (k N s : Nat) (alpha : Int) (hk : 1 ≤ k)
    (halpha : -2 ≤ alpha)
    (SIH : ∀ s' p alpha' beta', N - s' < N - s → -2 ≤ alpha' → beta' ≤ 2 →
      alpha' < beta' →
      KMrel alpha' beta' (minimax_ab_tree k N s' p alpha' beta').1 (Wval k N s' p)) :
    ∀ n j best beta, k - j ≤ n → best ≤ 2 → beta ≤ best → alpha < beta →
      KMrel alpha beta (abMinLoop k N s j best alpha beta).1
        (min best (tailMinW k N s j)) := by
  intro n
  induction n with
  | zero =>
    intro j best beta hn hb2 hbb hab
    rw [abMinLoop_stop k N s j best alpha beta (by omega)]
    rw [tailMinW_stop k N s j (by omega)]
    rw [min_eq_left (by omega)]
    exact KMrel_refl alpha beta best
  | succ n ih =>
    intro j best beta hn hb2 hbb hab
    by_cases hjk : j ≥ k
    · rw [abMinLoop_stop k N s j best alpha beta hjk]
      rw [tailMinW_stop k N s j hjk]
      rw [min_eq_left (by omega)]
      exact KMrel_refl alpha beta best
    · rw [abMinLoop_step k N s j best alpha beta hjk]
      rw [tailMinW_step k N s j hjk]
      set v := (abCandMin k N s (j + 1) alpha beta).1 with hvdef
      set w := wbm k N s (j + 1) with hwdef
      set T := tailMinW k N s (j + 1) with hTdef
      have htri : KMrel alpha beta v w := by
        by_cases hb : s + (j + 1) > N
        · rw [hvdef, hwdef, abCandMin_bust k N s (j + 1) alpha beta hb]
          unfold wbm
          rw [if_pos hb]
          exact KMrel_refl alpha beta 1
        · rw [hvdef, hwdef, abCandMin_rec k N s (j + 1) alpha beta hb]
          unfold wbm
          rw [if_neg hb]
          exact SIH (s + (j + 1)) true alpha beta (by omega) halpha (by omega) hab
      obtain ⟨tA, tB, tC⟩ := htri
      have hv : v = -1 ∨ v = 1 := abCandMin_val_mem k N s (j + 1) hk alpha beta
      have hw : w = -1 ∨ w = 1 := wbm_cases k N s (j + 1)
      have hwT : min w T ≤ w := min_le_left _ _
      by_cases hbr : alpha ≥ min beta (min best v)
      · rw [if_pos hbr]
        dsimp only
        -- the break: best2 = v <= alpha, so the child failed low: w <= v
        have hvalpha : v ≤ alpha := by
          rcases min_choice beta (min best v) with h | h
          · omega
          · rcases min_choice best v with h2 | h2 <;> omega
        have hvw : w ≤ v := tA hvalpha
        have hbv : min best v = v := min_eq_right (by omega)
        rw [hbv]
        refine ⟨fun _ => ?_, fun h => by omega, fun h h2 => by omega⟩
        calc min best (min w T) ≤ min w T := min_le_right _ _
          _ ≤ w := hwT
          _ ≤ v := hvw
      · rw [if_neg hbr]
        dsimp only
        have hvgt : alpha < v := by
          have h1 : min beta (min best v) ≤ min best v := min_le_right _ _
          have h2 : min best v ≤ v := min_le_right _ _
          omega
        have hwv : v ≤ w := by
          by_cases hvb : beta ≤ v
          · exact tB hvb
          · rw [tC hvgt (by omega)]
        have hvw_eq : v < beta → v = w := fun h => tC hvgt h
        have hIH := ih (j + 1) (min best v) (min beta (min best v)) (by omega)
          (le_trans (min_le_left _ _) hb2) (min_le_right _ _) (by omega)
        obtain ⟨iA, iB, iC⟩ := hIH
        set r2 := (abMinLoop k N s (j + 1) (min best v)
          alpha (min beta (min best v))).1 with hr2def
        have hr2le : r2 ≤ min best v := abMinLoop_le k N s k (j + 1) _ _ _ (by omega)
        have m1 := min_le_left best v
        have m2 := min_le_right best v
        have m3 := min_choice best v
        have m4 := min_le_left beta (min best v)
        have m5 := min_le_right beta (min best v)
        have m6 := min_choice beta (min best v)
        have m7 := min_le_left best (min w T)
        have m8 := min_le_right best (min w T)
        have m9 := min_choice best (min w T)
        have m10 := min_le_left w T
        have m11 := min_le_right w T
        have m12 := min_choice w T
        have m13 := min_le_left (min best v) T
        have m14 := min_le_right (min best v) T
        have m15 := min_choice (min best v) T
        refine ⟨fun h => ?_, fun h => ?_, fun h h2 => ?_⟩
        · have hiA := iA h
          omega
        · have hiB := iB (by omega)
          omega
        · by_cases hcase : min beta (min best v) ≤ r2
          · have hiB := iB hcase
            have hr2eq : r2 = min best v := by omega
            rcases m3 with h3 | h3
            · omega
            · have hvw := hvw_eq (by omega)
              omega
          · have hiC := iC h (by omega)
            rcases m15 with h15 | h15
            · rcases m3 with h3 | h3
              · omega
              · have hvw := hvw_eq (by omega)
                omega
            · omega

/-- The Knuth-Moore trichotomy for the alpha-beta search: within any
    window contained in [-2, 2] the result fails low with an upper bound,
    fails high with a lower bound, or is exactly the game value. -/
theorem abKM (k N : Nat) (hk : 1 ≤ k) :
    ∀ n s p alpha beta, N - s ≤ n → -2 ≤ alpha → beta ≤ 2 → alpha < beta →
      KMrel alpha beta (minimax_ab_tree k N s p alpha beta).1 (Wval k N s p) := by
  intro n
  induction n with
  | zero =>
    intro s p alpha beta hs ha hb hab
    rw [minimax_ab_terminal k N s p alpha beta (by omega)]
    rw [Wval_terminal k N s (by omega) p]
    cases p <;> exact KMrel_refl alpha beta _
  | succ n ih =>
    intro s p alpha beta hs ha hb hab
    by_cases hterm : s ≥ N
    · rw [minimax_ab_terminal k N s p alpha beta hterm]
      rw [Wval_terminal k N s hterm p]
      cases p <;> exact KMrel_refl alpha beta _
    · have SIH : ∀ s' p' alpha' beta', N - s' < N - s → -2 ≤ alpha' →
          beta' ≤ 2 → alpha' < beta' →
          KMrel alpha' beta' (minimax_ab_tree k N s' p' alpha' beta').1
            (Wval k N s' p') := by
        intro s' p' alpha' beta' hlt ha' hb' hab'
        exact ih s' p' alpha' beta' (by omega) ha' hb' hab'
      cases p
      · rw [minimax_ab_min k N s alpha beta hterm]
        have := abMinLoopKM k N s alpha hk ha SIH k 0 2 beta (by omega)
          le_rfl hb hab
        rw [tailMinW_zero k N s hk (by omega)] at this
        rw [min_eq_right] at this
        · exact this
        · rcases Wval_cases k N s false with h | h <;> omega
      · rw [minimax_ab_max k N s alpha beta hterm]
        have := abMaxLoopKM k N s beta hk hb SIH k 0 (-2) alpha (by omega)
          le_rfl ha hab
        rw [tailMaxW_zero k N s hk (by omega)] at this
        rw [max_eq_right] at this
        · exact this
        · rcases Wval_cases k N s true with h | h <;> omega

/-- With the full window (-2, 2) the alpha-beta search computes the game
    value exactly, at every state and for either mover. -/
theorem minimax_ab_value (k N s : Nat) (hk : 1 ≤ k) (p : Bool) :
    (minimax_ab_tree k N s p (-2) 2).1 = Wval k N s p := by
  have hkm := abKM k N hk (N - s) s p (-2) 2 le_rfl le_rfl le_rfl (by omega)
  obtain ⟨_, _, hC⟩ := hkm
  rcases ab_value_mem k N s hk p (-2) 2 with h | h <;>
    exact hC (by omega) (by omega)

/-! ### Node counts: pruning never visits more nodes -/

/-- The pruned search visits at most as many nodes as the plain search,
    from any state, for any mover and any window. -/
theorem ab_nodes_le (k N : Nat) :
    ∀ n s p alpha beta, N - s ≤ n →
      (minimax_ab_tree k N s p alpha beta).2 ≤ (minimax_tree k N s p).2 := by
  intro n
  induction n with
  | zero =>
    intro s p alpha beta hs
    rw [minimax_ab_terminal k N s p alpha beta (by omega)]
    rw [minimax_tree_terminal k N s p (by omega)]
  | succ n ih =>
    intro s p alpha beta hs
    by_cases hterm : s ≥ N
    · rw [minimax_ab_terminal k N s p alpha beta hterm]
      rw [minimax_tree_terminal k N s p hterm]
    · have hcM : ∀ i alpha' beta', 1 ≤ i → (abCandMax k N s i alpha' beta').2 ≤
          (if s + i ≤ N then (minimax_tree k N (s + i) false).2 else 0) := by
        intro i alpha' beta' hi1
        by_cases hb : s + i > N
        · rw [abCandMax_bust k N s i alpha' beta' hb, if_neg (by omega)]
        · rw [abCandMax_rec k N s i alpha' beta' hb, if_pos (by omega)]
          exact ih (s + i) false alpha' beta' (by omega)
      have hcm : ∀ i alpha' beta', 1 ≤ i → (abCandMin k N s i alpha' beta').2 ≤
          (if s + i ≤ N then (minimax_tree k N (s + i) true).2 else 0) := by
        intro i alpha' beta' hi1
        by_cases hb : s + i > N
        · rw [abCandMin_bust k N s i alpha' beta' hb, if_neg (by omega)]
        · rw [abCandMin_rec k N s i alpha' beta' hb, if_pos (by omega)]
          exact ih (s + i) true alpha' beta' (by omega)
      cases p
      · rw [minimax_ab_min k N s alpha beta hterm, minimax_tree_min k N s hterm]
        have main : ∀ m j best best' beta', k - j ≤ m →
            (abMinLoop k N s j best alpha beta').2 ≤ (mmMinLoop k N s j best').2 := by
          intro m
          induction m with
          | zero =>
            intro j best best' beta' hm
            rw [abMinLoop_stop k N s j best alpha beta' (by omega)]
            rw [mmMinLoop_stop k N s j best' (by omega)]
          | succ m ihm =>
            intro j best best' beta' hm
            by_cases hjk : j ≥ k
            · rw [abMinLoop_stop k N s j best alpha beta' hjk]
              rw [mmMinLoop_stop k N s j best' hjk]
            · rw [abMinLoop_step k N s j best alpha beta' hjk]
              rw [mmMinLoop_step k N s j best' hjk]
              dsimp only
              have hc := hcm (j + 1) alpha beta' (by omega)
              by_cases hbr : alpha ≥ min beta' (min best (abCandMin k N s (j + 1) alpha beta').1)
              · rw [if_pos hbr]
                dsimp only
                have := ihm (j + 1)
                  (min best (abCandMin k N s (j + 1) alpha beta').1)
                  (min best' (if s + (j + 1) ≤ N then (minimax_tree k N (s + (j + 1)) true).1 else 1))
                  (min beta' (min best (abCandMin k N s (j + 1) alpha beta').1)) (by omega)
                omega
              · rw [if_neg hbr]
                dsimp only
                have := ihm (j + 1)
                  (min best (abCandMin k N s (j + 1) alpha beta').1)
                  (min best' (if s + (j + 1) ≤ N then (minimax_tree k N (s + (j + 1)) true).1 else 1))
                  (min beta' (min best (abCandMin k N s (j + 1) alpha beta').1)) (by omega)
                omega
        have := main k 0 2 2 beta (by omega)
        omega
      · rw [minimax_ab_max k N s alpha beta hterm, minimax_tree_max k N s hterm]
        have main : ∀ m j best best' alpha', k - j ≤ m →
            (abMaxLoop k N s j best alpha' beta).2 ≤ (mmMaxLoop k N s j best').2 := by
          intro m
          induction m with
          | zero =>
            intro j best best' alpha' hm
            rw [abMaxLoop_stop k N s j best alpha' beta (by omega)]
            rw [mmMaxLoop_stop k N s j best' (by omega)]
          | succ m ihm =>
            intro j best best' alpha' hm
            by_cases hjk : j ≥ k
            · rw [abMaxLoop_stop k N s j best alpha' beta hjk]
              rw [mmMaxLoop_stop k N s j best' hjk]
            · rw [abMaxLoop_step k N s j best alpha' beta hjk]
              rw [mmMaxLoop_step k N s j best' hjk]
              dsimp only
              have hc := hcM (j + 1) alpha' beta (by omega)
              by_cases hbr : max alpha' (max best (abCandMax k N s (j + 1) alpha' beta).1) ≥ beta
              · rw [if_pos hbr]
                dsimp only
                have := ihm (j + 1)
                  (max best (abCandMax k N s (j + 1) alpha' beta).1)
                  (max best' (if s + (j + 1) ≤ N then (minimax_tree k N (s + (j + 1)) false).1 else -1))
                  (max alpha' (max best (abCandMax k N s (j + 1) alpha' beta).1)) (by omega)
                omega
              · rw [if_neg hbr]
                dsimp only
                have := ihm (j + 1)
                  (max best (abCandMax k N s (j + 1) alpha' beta).1)
                  (max best' (if s + (j + 1) ≤ N then (minimax_tree k N (s + (j + 1)) false).1 else -1))
                  (max alpha' (max best (abCandMax k N s (j + 1) alpha' beta).1)) (by omega)
                omega
        have := main k 0 (-2) (-2) alpha (by omega)
        omega

/-- Wrapper of ab_nodes_le at any state. -/
theorem ab_nodes_le_state (k N s : Nat) (p : Bool) (alpha beta : Int) :
    (minimax_ab_tree k N s p alpha beta).2 ≤ (minimax_tree k N s p).2 :=
  ab_nodes_le k N (N - s) s p alpha beta le_rfl

/-- Standalone MAX-loop version of the node-count comparison. -/
theorem abMaxLoop_nodes_le (k N s : Nat) :
    ∀ n j best best' alpha beta, k - j ≤ n →
      (abMaxLoop k N s j best alpha beta).2 ≤ (mmMaxLoop k N s j best').2 := by
  intro n
  induction n with
  | zero =>
    intro j best best' alpha beta hn
    rw [abMaxLoop_stop k N s j best alpha beta (by omega)]
    rw [mmMaxLoop_stop k N s j best' (by omega)]
  | succ n ih =>
    intro j best best' alpha beta hn
    by_cases hjk : j ≥ k
    · rw [abMaxLoop_stop k N s j best alpha beta hjk]
      rw [mmMaxLoop_stop k N s j best' hjk]
    · rw [abMaxLoop_step k N s j best alpha beta hjk]
      rw [mmMaxLoop_step k N s j best' hjk]
      dsimp only
      have hc : (abCandMax k N s (j + 1) alpha beta).2 ≤
          (if s + (j + 1) ≤ N then (minimax_tree k N (s + (j + 1)) false).2 else 0) := by
        by_cases hb : s + (j + 1) > N
        · rw [abCandMax_bust k N s (j + 1) alpha beta hb, if_neg (by omega)]
        · rw [abCandMax_rec k N s (j + 1) alpha beta hb, if_pos (by omega)]
          exact ab_nodes_le_state k N (s + (j + 1)) false alpha beta
      have hrest := ih (j + 1)
        (max best (abCandMax k N s (j + 1) alpha beta).1)
        (max best' (if s + (j + 1) ≤ N then (minimax_tree k N (s + (j + 1)) false).1 else -1))
        (max alpha (max best (abCandMax k N s (j + 1) alpha beta).1)) beta (by omega)
      by_cases hbr : max alpha (max best (abCandMax k N s (j + 1) alpha beta).1) ≥ beta
      · rw [if_pos hbr]
        dsimp only
        omega
      · rw [if_neg hbr]
        dsimp only
        omega

/-- Standalone MIN-loop version of the node-count comparison. -/
theorem abMinLoop_nodes_le (k N s : Nat) :
    ∀ n j best best' alpha beta, k - j ≤ n →
      (abMinLoop k N s j best alpha beta).2 ≤ (mmMinLoop k N s j best').2 := by
  intro n
  induction n with
  | zero =>
    intro j best best' alpha beta hn
    rw [abMinLoop_stop k N s j best alpha beta (by omega)]
    rw [mmMinLoop_stop k N s j best' (by omega)]
  | succ n ih =>
    intro j best best' alpha beta hn
    by_cases hjk : j ≥ k
    · rw [abMinLoop_stop k N s j best alpha beta hjk]
      rw [mmMinLoop_stop k N s j best' hjk]
    · rw [abMinLoop_step k N s j best alpha beta hjk]
      rw [mmMinLoop_step k N s j best' hjk]
      dsimp only
      have hc : (abCandMin k N s (j + 1) alpha beta).2 ≤
          (if s + (j + 1) ≤ N then (minimax_tree k N (s + (j + 1)) true).2 else 0) := by
        by_cases hb : s + (j + 1) > N
        · rw [abCandMin_bust k N s (j + 1) alpha beta hb, if_neg (by omega)]
        · rw [abCandMin_rec k N s (j + 1) alpha beta hb, if_pos (by omega)]
          exact ab_nodes_le_state k N (s + (j + 1)) true alpha beta
      have hrest := ih (j + 1)
        (min best (abCandMin k N s (j + 1) alpha beta).1)
        (min best' (if s + (j + 1) ≤ N then (minimax_tree k N (s + (j + 1)) true).1 else 1))
        alpha (min beta (min best (abCandMin k N s (j + 1) alpha beta).1)) (by omega)
      by_cases hbr : alpha ≥ min beta (min best (abCandMin k N s (j + 1) alpha beta).1)
      · rw [if_pos hbr]
        dsimp only
        omega
      · rw [if_neg hbr]
        dsimp only
        omega

/-! ### Strict pruning: machinery for exhibiting an actual cutoff -/

/-- Every plain-minimax call visits at least one node (itself). -/
theorem mm_nodes_pos (k N s : Nat) (p : Bool) : 1 ≤ (minimax_tree k N s p).2 := by
  by_cases h : s ≥ N
  · rw [minimax_tree_terminal k N s p h]
  · cases p
    · rw [minimax_tree_min k N s h]
      dsimp only
      omega
    · rw [minimax_tree_max k N s h]
      dsimp only
      omega

/-- If some remaining move of the plain MAX loop does not bust, the loop
    visits at least one node. -/
theorem mmMaxLoop_nodes_lb (k N s : Nat) :
    ∀ n j i, k - j ≤ n → j < i → i ≤ k → s + i ≤ N →
      ∀ best, 1 ≤ (mmMaxLoop k N s j best).2 := by
  intro n
  induction n with
  | zero => intro j i hn hj hi hs best; omega
  | succ n ih =>
    intro j i hn hj hi hs best
    rw [mmMaxLoop_step k N s j best (by omega)]
    dsimp only
    by_cases hij : i = j + 1
    · subst hij
      rw [if_pos hs]
      have := mm_nodes_pos k N (s + (j + 1)) false
      omega
    · have := ih (j + 1) i (by omega) (by omega) hi hs
        (max best (if s + (j + 1) ≤ N then (minimax_tree k N (s + (j + 1)) false).1 else -1))
      omega

/-- If some remaining move of the plain MIN loop does not bust, the loop
    visits at least one node. -/
theorem mmMinLoop_nodes_lb (k N s : Nat) :
    ∀ n j i, k - j ≤ n → j < i → i ≤ k → s + i ≤ N →
      ∀ best, 1 ≤ (mmMinLoop k N s j best).2 := by
  intro n
  induction n with
  | zero => intro j i hn hj hi hs best; omega
  | succ n ih =>
    intro j i hn hj hi hs best
    rw [mmMinLoop_step k N s j best (by omega)]
    dsimp only
    by_cases hij : i = j + 1
    · subst hij
      rw [if_pos hs]
      have := mm_nodes_pos k N (s + (j + 1)) true
      omega
    · have := ih (j + 1) i (by omega) (by omega) hi hs
        (min best (if s + (j + 1) ≤ N then (minimax_tree k N (s + (j + 1)) true).1 else 1))
      omega

/-- A pruned search that is forced into a losing state returns -1 as long
    as the window has not already closed above it (alpha < 1). -/
theorem ab_value_low (k N s : Nat) (hk : 1 ≤ k) (p : Bool) (alpha beta : Int)
    (ha2 : -2 ≤ alpha) (hb2 : beta ≤ 2) (hab : alpha < beta) (ha1 : alpha < 1)
    (hW : Wval k N s p = -1) :
    (minimax_ab_tree k N s p alpha beta).1 = -1 := by
  obtain ⟨A, B, C⟩ := abKM k N hk (N - s) s p alpha beta le_rfl ha2 hb2 hab
  rcases ab_value_mem k N s hk p alpha beta with h | h
  · exact h
  · exfalso
    by_cases hrb : (minimax_ab_tree k N s p alpha beta).1 < beta
    · have := C (by omega) hrb
      omega
    · have := B (by omega)
      omega

/-- A pruned search on a winning state returns 1 as long as the window
    has not already closed below it (-1 < beta, alpha < 1). -/
theorem ab_value_high (k N s : Nat) (hk : 1 ≤ k) (p : Bool) (alpha beta : Int)
    (ha2 : -2 ≤ alpha) (hb2 : beta ≤ 2) (hab : alpha < beta) (ha1 : alpha < 1)
    (hbneg : -1 < beta) (hW : Wval k N s p = 1) :
    (minimax_ab_tree k N s p alpha beta).1 = 1 := by
  obtain ⟨A, B, C⟩ := abKM k N hk (N - s) s p alpha beta le_rfl ha2 hb2 hab
  rcases ab_value_mem k N s hk p alpha beta with h | h
  · exfalso
    by_cases hra : (minimax_ab_tree k N s p alpha beta).1 ≤ alpha
    · have := A hra
      omega
    · have := C (by omega) (by omega)
      omega
  · exact h

/-- A MIN node entered with alpha already at 1 cuts off after its first
    move; if the second move does not bust, the pruned count is strictly
    below the plain count. -/
theorem abMin_strict_cut (k N s : Nat) (alpha beta : Int) (hk : 2 ≤ k)
    (ha : 1 ≤ alpha) (hs2 : s + 2 ≤ N) :
    (minimax_ab_tree k N s false alpha beta).2 < (minimax_tree k N s false).2 := by
  have hterm : ¬ s ≥ N := by omega
  rw [minimax_ab_min k N s alpha beta hterm, minimax_tree_min k N s hterm]
  dsimp only
  rw [abMinLoop_step k N s 0 2 alpha beta (by omega)]
  have hcv := abCandMin_val_mem k N s 1 (by omega) alpha beta
  have hbr : alpha ≥ min beta (min 2 (abCandMin k N s 1 alpha beta).1) := by
    have m1 := min_le_right beta (min 2 (abCandMin k N s 1 alpha beta).1)
    have m2 := min_le_right 2 (abCandMin k N s 1 alpha beta).1
    omega
  rw [if_pos hbr]
  dsimp only
  rw [mmMinLoop_step k N s 0 2 (by omega)]
  dsimp only
  simp only [Nat.zero_add]
  rw [if_pos (show s + 1 ≤ N from by omega)]
  rw [if_pos (show s + 1 ≤ N from by omega)]
  have hc : (abCandMin k N s 1 alpha beta).2 ≤ (minimax_tree k N (s + 1) true).2 := by
    rw [abCandMin_rec k N s 1 alpha beta (by omega)]
    exact ab_nodes_le_state k N (s + 1) true alpha beta
  have hrest := mmMinLoop_nodes_lb k N s k 1 2 (by omega) (by omega) (by omega) hs2
    (min 2 (minimax_tree k N (s + 1) true).1)
  omega

/-- A MAX node entered with beta already at -1 cuts off after its first
    move; if the second move does not bust, the pruned count is strictly
    below the plain count. -/
theorem abMax_strict_cut (k N s : Nat) (alpha beta : Int) (hk : 2 ≤ k)
    (hb : beta ≤ -1) (hs2 : s + 2 ≤ N) :
    (minimax_ab_tree k N s true alpha beta).2 < (minimax_tree k N s true).2 := by
  have hterm : ¬ s ≥ N := by omega
  rw [minimax_ab_max k N s alpha beta hterm, minimax_tree_max k N s hterm]
  dsimp only
  rw [abMaxLoop_step k N s 0 (-2) alpha beta (by omega)]
  have hcv := abCandMax_val_mem k N s 1 (by omega) alpha beta
  have hbr : max alpha (max (-2) (abCandMax k N s 1 alpha beta).1) ≥ beta := by
    have m1 := le_max_right alpha (max (-2 : Int) (abCandMax k N s 1 alpha beta).1)
    have m2 := le_max_right (-2 : Int) (abCandMax k N s 1 alpha beta).1
    omega
  rw [if_pos hbr]
  dsimp only
  rw [mmMaxLoop_step k N s 0 (-2) (by omega)]
  dsimp only
  simp only [Nat.zero_add]
  rw [if_pos (show s + 1 ≤ N from by omega)]
  rw [if_pos (show s + 1 ≤ N from by omega)]
  have hc : (abCandMax k N s 1 alpha beta).2 ≤ (minimax_tree k N (s + 1) false).2 := by
    rw [abCandMax_rec k N s 1 alpha beta (by omega)]
    exact ab_nodes_le_state k N (s + 1) false alpha beta
  have hrest := mmMaxLoop_nodes_lb k N s k 1 2 (by omega) (by omega) (by omega) hs2
    (max (-2) (minimax_tree k N (s + 1) false).1)
  omega

/-- If the move explored next by the ab MAX loop leads to a strictly
    pruned subtree, the whole remaining loop is strictly pruned. -/
theorem abMaxLoop_strict_step (k N s j : Nat) (best alpha beta : Int)
    (hjk : ¬ j ≥ k) (hnb : s + (j + 1) ≤ N)
    (hchild : (minimax_ab_tree k N (s + (j + 1)) false alpha beta).2 <
              (minimax_tree k N (s + (j + 1)) false).2) :
    ∀ best', (abMaxLoop k N s j best alpha beta).2 < (mmMaxLoop k N s j best').2 := by
  intro best'
  rw [abMaxLoop_step k N s j best alpha beta hjk, mmMaxLoop_step k N s j best' hjk]
  dsimp only
  rw [if_pos hnb]
  have hcand := abCandMax_rec k N s (j + 1) alpha beta (by omega)
  have hc2 : (abCandMax k N s (j + 1) alpha beta).2 <
      (minimax_tree k N (s + (j + 1)) false).2 := by
    rw [hcand]
    exact hchild
  by_cases hbr : max alpha (max best (abCandMax k N s (j + 1) alpha beta).1) ≥ beta
  · rw [if_pos hbr]
    dsimp only
    omega
  · rw [if_neg hbr]
    dsimp only
    have hrest := abMaxLoop_nodes_le k N s k (j + 1)
      (max best (abCandMax k N s (j + 1) alpha beta).1)
      (max best' (if s + (j + 1) ≤ N then (minimax_tree k N (s + (j + 1)) false).1 else -1))
      (max alpha (max best (abCandMax k N s (j + 1) alpha beta).1)) beta (by omega)
    omega

/-- Mirror: strict pruning propagates through the ab MIN loop. -/
theorem abMinLoop_strict_step (k N s j : Nat) (best alpha beta : Int)
    (hjk : ¬ j ≥ k) (hnb : s + (j + 1) ≤ N)
    (hchild : (minimax_ab_tree k N (s + (j + 1)) true alpha beta).2 <
              (minimax_tree k N (s + (j + 1)) true).2) :
    ∀ best', (abMinLoop k N s j best alpha beta).2 < (mmMinLoop k N s j best').2 := by
  intro best'
  rw [abMinLoop_step k N s j best alpha beta hjk, mmMinLoop_step k N s j best' hjk]
  dsimp only
  rw [if_pos hnb]
  have hcand := abCandMin_rec k N s (j + 1) alpha beta (by omega)
  have hc2 : (abCandMin k N s (j + 1) alpha beta).2 <
      (minimax_tree k N (s + (j + 1)) true).2 := by
    rw [hcand]
    exact hchild
  by_cases hbr : alpha ≥ min beta (min best (abCandMin k N s (j + 1) alpha beta).1)
  · rw [if_pos hbr]
    dsimp only
    omega
  · rw [if_neg hbr]
    dsimp only
    have hrest := abMinLoop_nodes_le k N s k (j + 1)
      (min best (abCandMin k N s (j + 1) alpha beta).1)
      (min best' (if s + (j + 1) ≤ N then (minimax_tree k N (s + (j + 1)) true).1 else 1))
      alpha (min beta (min best (abCandMin k N s (j + 1) alpha beta).1)) (by omega)
    omega

/-- Advancing one non-breaking step preserves strictness of the tail of
    the ab MAX loop. -/
theorem abMaxLoop_advance (k N s j : Nat) (best alpha beta v : Int)
    (hjk : ¬ j ≥ k)
    (hcv : (abCandMax k N s (j + 1) alpha beta).1 = v)
    (hnobr : ¬ max alpha (max best v) ≥ beta)
    (htail : ∀ b2, (abMaxLoop k N s (j + 1) (max best v)
        (max alpha (max best v)) beta).2 < (mmMaxLoop k N s (j + 1) b2).2) :
    ∀ best', (abMaxLoop k N s j best alpha beta).2 < (mmMaxLoop k N s j best').2 := by
  intro best'
  rw [abMaxLoop_step k N s j best alpha beta hjk, mmMaxLoop_step k N s j best' hjk]
  dsimp only
  rw [hcv]
  rw [if_neg hnobr]
  dsimp only
  have hc : (abCandMax k N s (j + 1) alpha beta).2 ≤
      (if s + (j + 1) ≤ N then (minimax_tree k N (s + (j + 1)) false).2 else 0) := by
    by_cases hb : s + (j + 1) > N
    · rw [abCandMax_bust k N s (j + 1) alpha beta hb, if_neg (by omega)]
    · rw [abCandMax_rec k N s (j + 1) alpha beta hb, if_pos (by omega)]
      exact ab_nodes_le_state k N (s + (j + 1)) false alpha beta
  have := htail (max best' (if s + (j + 1) ≤ N then (minimax_tree k N (s + (j + 1)) false).1 else -1))
  omega

/-- Advancing one non-breaking step preserves strictness of the tail of
    the ab MIN loop. -/
theorem abMinLoop_advance (k N s j : Nat) (best alpha beta v : Int)
    (hjk : ¬ j ≥ k)
    (hcv : (abCandMin k N s (j + 1) alpha beta).1 = v)
    (hnobr : ¬ alpha ≥ min beta (min best v))
    (htail : ∀ b2, (abMinLoop k N s (j + 1) (min best v)
        alpha (min beta (min best v))).2 < (mmMinLoop k N s (j + 1) b2).2) :
    ∀ best', (abMinLoop k N s j best alpha beta).2 < (mmMinLoop k N s j best').2 := by
  intro best'
  rw [abMinLoop_step k N s j best alpha beta hjk, mmMinLoop_step k N s j best' hjk]
  dsimp only
  rw [hcv]
  rw [if_neg hnobr]
  dsimp only
  have hc : (abCandMin k N s (j + 1) alpha beta).2 ≤
      (if s + (j + 1) ≤ N then (minimax_tree k N (s + (j + 1)) true).2 else 0) := by
    by_cases hb : s + (j + 1) > N
    · rw [abCandMin_bust k N s (j + 1) alpha beta hb, if_neg (by omega)]
    · rw [abCandMin_rec k N s (j + 1) alpha beta hb, if_pos (by omega)]
      exact ab_nodes_le_state k N (s + (j + 1)) true alpha beta
  have := htail (min best' (if s + (j + 1) ≤ N then (minimax_tree k N (s + (j + 1)) true).1 else 1))
  omega

/-- A MAX node whose moves 1..t-1 lead to losing children, whose move t
    leads to a winning child, and whose move t+1 has room below N,
    prunes strictly under the full window: after move t the running
    alpha reaches 1 and the MIN child explored at move t+1 cuts off
    immediately, skipping a non-busting move. -/
theorem abMax_path_strict (k N s t : Nat) (hk : 2 ≤ k)
    (ht1 : 1 ≤ t) (htk : t + 1 ≤ k)
    (hneg : ∀ i, 1 ≤ i → i < t → s + i ≤ N ∧ Wval k N (s + i) false = -1)
    (hpos : s + t ≤ N) (hposW : Wval k N (s + t) false = 1)
    (hnext : s + t + 3 ≤ N) :
    (minimax_ab_tree k N s true (-2) 2).2 < (minimax_tree k N s true).2 := by
  have hk1 : 1 ≤ k := by omega
  have hterm : ¬ s ≥ N := by omega
  rw [minimax_ab_max k N s (-2) 2 hterm, minimax_tree_max k N s hterm]
  dsimp only
  have base : ∀ best alpha : Int, -2 ≤ best → best ≤ -1 → -2 ≤ alpha → alpha ≤ -1 →
      ∀ best', (abMaxLoop k N s (t - 1) best alpha 2).2 <
        (mmMaxLoop k N s (t - 1) best').2 := by
    intro best alpha hb1 hb2 ha1 ha2
    have ht1' : t - 1 + 1 = t := by omega
    have hcv : (abCandMax k N s (t - 1 + 1) alpha 2).1 = 1 := by
      rw [ht1']
      rw [abCandMax_rec k N s t alpha 2 (by omega)]
      exact ab_value_high k N (s + t) hk1 false alpha 2 (by omega) le_rfl
        (by omega) (by omega) (by omega) hposW
    apply abMaxLoop_advance k N s (t - 1) best alpha 2 1 (by omega) hcv
    · have e1 : max best (1 : Int) = 1 := max_eq_right (by omega)
      rw [e1]
      have e2 : max alpha (1 : Int) = 1 := max_eq_right (by omega)
      rw [e2]
      omega
    · intro b2
      have e1 : max best (1 : Int) = 1 := max_eq_right (by omega)
      rw [e1]
      have e2 : max alpha (1 : Int) = 1 := max_eq_right (by omega)
      rw [e2]
      rw [ht1']
      refine abMaxLoop_strict_step k N s t 1 1 2 (by omega) (by omega) ?_ b2
      exact abMin_strict_cut k N (s + (t + 1)) 1 2 hk (by omega) (by omega)
  have run : ∀ m jj, t - 1 - jj ≤ m → jj ≤ t - 1 →
      ∀ best alpha : Int, -2 ≤ best → best ≤ -1 → -2 ≤ alpha → alpha ≤ -1 →
      ∀ best', (abMaxLoop k N s jj best alpha 2).2 < (mmMaxLoop k N s jj best').2 := by
    intro m
    induction m with
    | zero =>
      intro jj h0 hjt best alpha hb1 hb2 ha1 ha2
      have hjj : jj = t - 1 := by omega
      subst hjj
      exact base best alpha hb1 hb2 ha1 ha2
    | succ m ihm =>
      intro jj h0 hjt best alpha hb1 hb2 ha1 ha2
      by_cases hjj : jj = t - 1
      · subst hjj
        exact base best alpha hb1 hb2 ha1 ha2
      · obtain ⟨hin, hiw⟩ := hneg (jj + 1) (by omega) (by omega)
        have hcv : (abCandMax k N s (jj + 1) alpha 2).1 = -1 := by
          rw [abCandMax_rec k N s (jj + 1) alpha 2 (by omega)]
          exact ab_value_low k N (s + (jj + 1)) hk1 false alpha 2 ha1 le_rfl
            (by omega) (by omega) hiw
        apply abMaxLoop_advance k N s jj best alpha 2 (-1) (by omega) hcv
        · have e1 : max best (-1 : Int) = -1 := max_eq_right (by omega)
          rw [e1]
          have e2 : max alpha (-1 : Int) = -1 := max_eq_right (by omega)
          rw [e2]
          omega
        · intro b2
          have e1 : max best (-1 : Int) = -1 := max_eq_right (by omega)
          rw [e1]
          have e2 : max alpha (-1 : Int) = -1 := max_eq_right (by omega)
          rw [e2]
          exact ihm (jj + 1) (by omega) (by omega) (-1) (-1) (by omega) le_rfl
            (by omega) le_rfl b2
  have := run (t - 1) 0 (by omega) (by omega) (-2) (-2) le_rfl (by omega)
    le_rfl (by omega) (-2)
  omega

/-- Mirror path lemma for a MIN node under the full window: moves 1..t-1
    lead to winning children, move t to a losing child, after which beta
    reaches -1 and the MAX child explored at move t+1 cuts off
    immediately, skipping a non-busting move. -/
theorem abMin_path_strict (k N s t : Nat) (hk : 2 ≤ k)
    (ht1 : 1 ≤ t) (htk : t + 1 ≤ k)
    (hpos : ∀ j, 1 ≤ j → j < t → s + j ≤ N ∧ Wval k N (s + j) true = 1)
    (hnegb : s + t ≤ N) (hnegW : Wval k N (s + t) true = -1)
    (hnext : s + t + 3 ≤ N) :
    (minimax_ab_tree k N s false (-2) 2).2 < (minimax_tree k N s false).2 := by
  have hk1 : 1 ≤ k := by omega
  have hterm : ¬ s ≥ N := by omega
  rw [minimax_ab_min k N s (-2) 2 hterm, minimax_tree_min k N s hterm]
  dsimp only
  have base : ∀ best beta : Int, best ≤ 2 → 1 ≤ best → beta ≤ 2 → 1 ≤ beta →
      ∀ best', (abMinLoop k N s (t - 1) best (-2) beta).2 <
        (mmMinLoop k N s (t - 1) best').2 := by
    intro best beta hb1 hb2 hbb1 hbb2
    have ht1' : t - 1 + 1 = t := by omega
    have hcv : (abCandMin k N s (t - 1 + 1) (-2) beta).1 = -1 := by
      rw [ht1']
      rw [abCandMin_rec k N s t (-2) beta (by omega)]
      exact ab_value_low k N (s + t) hk1 true (-2) beta le_rfl (by omega)
        (by omega) (by omega) hnegW
    apply abMinLoop_advance k N s (t - 1) best (-2) beta (-1) (by omega) hcv
    · have e1 : min best (-1 : Int) = -1 := min_eq_right (by omega)
      rw [e1]
      have e2 : min beta (-1 : Int) = -1 := min_eq_right (by omega)
      rw [e2]
      omega
    · intro b2
      have e1 : min best (-1 : Int) = -1 := min_eq_right (by omega)
      rw [e1]
      have e2 : min beta (-1 : Int) = -1 := min_eq_right (by omega)
      rw [e2]
      rw [ht1']
      refine abMinLoop_strict_step k N s t (-1) (-2) (-1) (by omega) (by omega) ?_ b2
      exact abMax_strict_cut k N (s + (t + 1)) (-2) (-1) hk (by omega) (by omega)
  have run : ∀ m jj, t - 1 - jj ≤ m → jj ≤ t - 1 →
      ∀ best beta : Int, best ≤ 2 → 1 ≤ best → beta ≤ 2 → 1 ≤ beta →
      ∀ best', (abMinLoop k N s jj best (-2) beta).2 < (mmMinLoop k N s jj best').2 := by
    intro m
    induction m with
    | zero =>
      intro jj h0 hjt best beta hb1 hb2 hbb1 hbb2
      have hjj : jj = t - 1 := by omega
      subst hjj
      exact base best beta hb1 hb2 hbb1 hbb2
    | succ m ihm =>
      intro jj h0 hjt best beta hb1 hb2 hbb1 hbb2
      by_cases hjj : jj = t - 1
      · subst hjj
        exact base best beta hb1 hb2 hbb1 hbb2
      · obtain ⟨hin, hiw⟩ := hpos (jj + 1) (by omega) (by omega)
        have hcv : (abCandMin k N s (jj + 1) (-2) beta).1 = 1 := by
          rw [abCandMin_rec k N s (jj + 1) (-2) beta (by omega)]
          exact ab_value_high k N (s + (jj + 1)) hk1 true (-2) beta le_rfl
            (by omega) (by omega) (by omega) (by omega) hiw
        apply abMinLoop_advance k N s jj best (-2) beta 1 (by omega) hcv
        · have e1 : min best (1 : Int) = 1 := min_eq_right (by omega)
          rw [e1]
          have e2 : min beta (1 : Int) = 1 := min_eq_right (by omega)
          rw [e2]
          omega
        · intro b2
          have e1 : min best (1 : Int) = 1 := min_eq_right (by omega)
          rw [e1]
          have e2 : min beta (1 : Int) = 1 := min_eq_right (by omega)
          rw [e2]
          exact ihm (jj + 1) (by omega) (by omega) 1 1 (by omega) le_rfl
            (by omega) le_rfl b2
  have := run (t - 1) 0 (by omega) (by omega) 2 2 le_rfl (by omega)
    le_rfl (by omega) 2
  omega

/-- For k >= 2 and N >= k + 2 a cutoff of the pruned search always fires
    somewhere in the first three plies, so the pruned root search visits
    strictly fewer nodes than the plain root search. -/
theorem ab_root_strict (k N : Nat) (hk : 2 ≤ k) (hN : k + 2 ≤ N) :
    (minimax_ab_tree k N 0 true (-2) 2).2 < (minimax_tree k N 0 true).2 := by
  have hk1 : 1 ≤ k := by omega
  have hrlt := Nat.mod_lt N (show 0 < k + 1 from by omega)
  by_cases hr0 : N % (k + 1) = 0
  · -- Case B: the start is a losing state; exploring child 1, then its
    -- first move, reaches a MAX node at sum 2 where the winning move
    -- k - 1 raises alpha to 1 and move k is cut off.
    have hdvd := Nat.dvd_of_mod_eq_zero hr0
    have hN2 : 2 * (k + 1) ≤ N := by
      obtain ⟨q, hq⟩ := hdvd
      rcases Nat.lt_or_ge q 2 with hq2 | hq2
      · have := Nat.mul_le_mul_left (k + 1) (show q ≤ 1 from by omega)
        omega
      · have := Nat.mul_le_mul_left (k + 1) hq2
        omega
    have hsubmod : (N - (k + 1)) % (k + 1) = 0 := by
      obtain ⟨q, hq⟩ := hdvd
      match q, hq with
      | 0, hq => omega
      | q' + 1, hq =>
        have hmul : (k + 1) * (q' + 1) = (k + 1) * q' + (k + 1) := by ring
        have he : N - (k + 1) = (k + 1) * q' := by omega
        rw [he]
        exact Nat.mul_mod_right _ _
    have hmax2 : (minimax_ab_tree k N 2 true (-2) 2).2 <
        (minimax_tree k N 2 true).2 := by
      apply abMax_path_strict k N 2 (k - 1) hk (by omega) (by omega)
      · intro i hi1 hit
        refine ⟨by omega, ?_⟩
        rw [Wval_false]
        have hne : (N - (2 + i)) % (k + 1) ≠ 0 :=
          sub_mod_ne_zero k N (2 + i) (by omega) (by omega) (by omega) hr0
        rw [mvalD_of_mod_ne k _ hne]
      · omega
      · have he : 2 + (k - 1) = k + 1 := by omega
        rw [he, Wval_false]
        rw [mvalD_of_mod_eq k _ hsubmod]
        norm_num
      · omega
    have hmin1 : (minimax_ab_tree k N 1 false (-2) 2).2 <
        (minimax_tree k N 1 false).2 := by
      have hterm1 : ¬ 1 ≥ N := by omega
      rw [minimax_ab_min k N 1 (-2) 2 hterm1, minimax_tree_min k N 1 hterm1]
      dsimp only
      have := abMinLoop_strict_step k N 1 0 2 (-2) 2 (by omega) (by omega) hmax2 2
      omega
    have hterm0 : ¬ 0 ≥ N := by omega
    rw [minimax_ab_max k N 0 (-2) 2 hterm0, minimax_tree_max k N 0 hterm0]
    dsimp only
    have := abMaxLoop_strict_step k N 0 0 (-2) (-2) 2 (by omega) (by omega) hmin1 (-2)
    omega
  · by_cases hrk : N % (k + 1) = k
    · -- Case C: child 1 is a MIN node whose move k - 1 drops beta to -1,
      -- after which the MAX child at move k cuts off.
      have hN2 : 2 * k + 1 ≤ N := by
        have hdm := Nat.div_add_mod N (k + 1)
        rcases Nat.lt_or_ge (N / (k + 1)) 1 with hq | hq
        · have hq0 : N / (k + 1) = 0 := Nat.lt_one_iff.mp hq
          rw [hq0, Nat.mul_zero] at hdm
          omega
        · have := Nat.mul_le_mul_left (k + 1) hq
          omega
      have hmin1 : (minimax_ab_tree k N 1 false (-2) 2).2 <
          (minimax_tree k N 1 false).2 := by
        apply abMin_path_strict k N 1 (k - 1) hk (by omega) (by omega)
        · intro j hj1 hjt
          refine ⟨by omega, ?_⟩
          rw [Wval_true]
          have hne : (N - (1 + j)) % (k + 1) ≠ 0 := by
            intro h0
            have := mod_eq_of_sub_mod_eq_zero k N (1 + j) (by omega) (by omega)
              (by omega) h0
            omega
          rw [mvalD_of_mod_ne k _ hne]
        · omega
        · have he : 1 + (k - 1) = k := by omega
          rw [he, Wval_true]
          have heq : (N - k) % (k + 1) = 0 := by
            have := sub_mod_self_mod k N
            rw [hrk] at this
            exact this
          rw [mvalD_of_mod_eq k _ heq]
        · omega
      have hterm0 : ¬ 0 ≥ N := by omega
      rw [minimax_ab_max k N 0 (-2) 2 hterm0, minimax_tree_max k N 0 hterm0]
      dsimp only
      have := abMaxLoop_strict_step k N 0 0 (-2) (-2) 2 (by omega) (by omega) hmin1 (-2)
      omega
    · -- Case A: 1 <= r <= k - 1: the root itself is the path node, with
      -- winning move r and the MIN child at move r + 1 cut off.
      apply abMax_path_strict k N 0 (N % (k + 1)) hk (by omega) (by omega)
      · intro i hi1 hit
        refine ⟨by omega, ?_⟩
        have he : 0 + i = i := by omega
        rw [he, Wval_false]
        have hne : (N - i) % (k + 1) ≠ 0 := by
          intro h0
          have := mod_eq_of_sub_mod_eq_zero k N i (by omega) (by omega)
            (by omega) h0
          omega
        rw [mvalD_of_mod_ne k _ hne]
      · omega
      · have he : 0 + N % (k + 1) = N % (k + 1) := by omega
        rw [he, Wval_false]
        rw [mvalD_of_mod_eq k _ (sub_mod_self_mod k N)]
        norm_num
      · omega

/-! ### The game simulator terminates within N + 1 moves -/

/-- The worst-move scan always selects a move of at least 1. -/
theorem worstScan_pos (V : List Int) (s N : Nat) :
    ∀ m, 1 ≤ (worstScan V s N m).2 := by
  intro m
  induction m with
  | zero => exact le_rfl
  | succ e ih =>
    show 1 ≤ (worstScan V s N (e + 1)).2
    rw [worstScan]
    split <;> split
    all_goals first
      | exact ih
      | exact Nat.le_add_left 1 e

/-- The optimal policy entry below N is a move of at least 1. -/
theorem policy_move_pos (k N s : Nat) (hk : 1 ≤ k) (hs : s < N) :
    1 ≤ ((solve_addition_game k N).policy.getD s none).getD 0 := by
  rw [solve_policy_getD k N s hk (by omega)]
  unfold polD
  rw [if_neg (by omega : ¬ N - s = 0)]
  by_cases h : (N - s) % (k + 1) = 0
  · rw [if_pos h]
    simp
  · rw [if_neg h]
    simp
    omega

/-- The simulation loop of demo_game_play always terminates within its
    fuel when the fuel covers the remaining distance: it returns the
    winner and a nonempty trajectory of at most N + 1 - s further moves
    whose final record busts, the winner being the opponent of the final
    mover. -/
theorem gamePlayLoop_total (k N : Nat) (hk : 1 ≤ k) (p1o p2o : Bool) :
    ∀ fuel s isP1 acc, s ≤ N → N + 1 - s ≤ fuel →
      ∃ w steps, gamePlayLoop k N p1o p2o (solve_addition_game k N).V
          (solve_addition_game k N).policy fuel s isP1 acc =
            some (w, acc ++ steps) ∧
        steps ≠ [] ∧ steps.length ≤ N + 1 - s ∧
        ∃ last, steps.getLast? = some last ∧ N < last.sumAfter ∧
          w = !last.mover1 := by
  intro fuel
  induction fuel with
  | zero => intro s isP1 acc hs hf; omega
  | succ f ih =>
    intro s isP1 acc hs hf
    show ∃ w steps, gamePlayLoop k N p1o p2o _ _ (f + 1) s isP1 acc = _ ∧ _
    rw [gamePlayLoop]
    by_cases hsN : s = N
    · rw [if_pos hsN]
      refine ⟨!isP1, [⟨isP1, s, 1, s + 1⟩], rfl, by simp, by
        simp only [List.length_singleton]; omega, ?_⟩
      exact ⟨⟨isP1, s, 1, s + 1⟩, rfl, by show N < s + 1; omega, rfl⟩
    · rw [if_neg hsN]
      set i := if (isP1 && p1o) || (!isP1 && p2o)
          then ((solve_addition_game k N).policy.getD s none).getD 0
          else (worstScan (solve_addition_game k N).V s N k).2 with hidef
      have hi1 : 1 ≤ i := by
        rw [hidef]
        by_cases hb : (isP1 && p1o || !isP1 && p2o) = true
        · rw [if_pos hb]
          exact policy_move_pos k N s hk (by omega)
        · rw [if_neg hb]
          exact worstScan_pos _ _ _ k
      by_cases hbust : s + i > N
      · rw [if_pos hbust]
        refine ⟨!isP1, [⟨isP1, s, i, s + i⟩], rfl, by simp, by
          simp only [List.length_singleton]; omega, ?_⟩
        exact ⟨⟨isP1, s, i, s + i⟩, rfl, by show N < s + i; omega, rfl⟩
      · rw [if_neg hbust]
        obtain ⟨w, steps, hrun, hne, hlen, last, hlast, hbustl, hw⟩ :=
          ih (s + i) (!isP1) (acc ++ [⟨isP1, s, i, s + i⟩]) (by omega) (by omega)
        refine ⟨w, ⟨isP1, s, i, s + i⟩ :: steps, ?_, by simp, by
          simp only [List.length_cons]; omega, ?_⟩
        · rw [hrun]
          rw [List.append_assoc, List.singleton_append]
        · refine ⟨last, ?_, hbustl, hw⟩
          rw [show (⟨isP1, s, i, s + i⟩ : MoveStep) :: steps =
                [⟨isP1, s, i, s + i⟩] ++ steps from rfl]
          rw [List.getLast?_append_of_ne_nil _ hne]
          exact hlast

/-! ### The claims -/

/-- C1: for every k >= 1, N >= 0 and every s with 0 <= s <= N, the value
    table produced by solve_addition_game satisfies V[s] = -1 if
    (N - s) mod (k + 1) = 0 and V[s] = +1 otherwise, i.e. the DP output
    equals the closed-form oracle valueAt(s, k, N) at every state. -/
theorem C1_dp_matches_closed_form (k N s : Nat) (hk : 1 ≤ k) (hs : s ≤ N) :
    (solve_addition_game k N).V.getD s 0 = closedFormValue s k N := by
  rw [solve_V_getD k N s hk hs, closedFormValue_eq_mvalD]

theorem C1_witness :
    1 ≤ 3 ∧ 4 ≤ 10 ∧
    (solve_addition_game 3 10).V.getD 4 0 = closedFormValue 4 3 10 :=
  ⟨by decide, by decide, C1_dp_matches_closed_form 3 10 4 (by decide) (by decide)⟩

/-- C2: for every k >= 1 and N >= 0 the three independent computations of
    the root value agree: plain minimax at (0, Player I), alpha-beta at
    (0, Player I) with the full window (-inf, +inf) (modelled -2, 2),
    and the DP value table at state 0. -/
theorem C2_three_methods_agree (k N : Nat) (hk : 1 ≤ k) :
    (minimax_tree k N 0 true).1 = (minimax_ab_tree k N 0 true (-2) 2).1 ∧
    (minimax_tree k N 0 true).1 = (solve_addition_game k N).V.getD 0 0 := by
  constructor
  · rw [minimax_tree_value k N 0 hk true, minimax_ab_value k N 0 hk true]
  · rw [minimax_tree_value k N 0 hk true, solve_V_getD k N 0 hk (by omega),
      Wval_true]

theorem C2_witness :
    1 ≤ 2 ∧
    ((minimax_tree 2 5 0 true).1 = (minimax_ab_tree 2 5 0 true (-2) 2).1 ∧
     (minimax_tree 2 5 0 true).1 = (solve_addition_game 2 5).V.getD 0 0) :=
  ⟨by decide, C2_three_methods_agree 2 5 (by decide)⟩

/-- C3 (code defect exhibited): solve_addition_game performs no parameter
    validation at all.  Called with the invalid parameter k = 0 it
    silently returns a full-length table whose entries below N still hold
    the -inf initial bound (modelled -2), a value that is neither -1 nor
    +1 - a malformed value table with an all-None policy instead of a
    signaled InvalidParameter condition. -/
theorem C3_no_validation_malformed_table :
    (solve_addition_game 0 2).V = [-2, -2, -1] ∧
    (solve_addition_game 0 2).policy = [none, none, none] ∧
    (solve_addition_game 0 2).V.getD 0 0 ≠ -1 ∧
    (solve_addition_game 0 2).V.getD 0 0 ≠ 1 := by
  refine ⟨by decide, by decide, by decide, by decide⟩

/-- C4: with both searches started at s = 0, Player I to move and the
    full window, alpha-beta visits no more nodes than plain minimax for
    every k >= 1 and N >= 0, and strictly fewer whenever k >= 2 and
    N >= k + 2. -/
theorem C4_pruning_node_counts (k N : Nat) (hk : 1 ≤ k) :
    (minimax_ab_tree k N 0 true (-2) 2).2 ≤ (minimax_tree k N 0 true).2 ∧
    (2 ≤ k → k + 2 ≤ N →
      (minimax_ab_tree k N 0 true (-2) 2).2 < (minimax_tree k N 0 true).2) :=
  ⟨ab_nodes_le_state k N 0 true (-2) 2, fun h2 hN => ab_root_strict k N h2 hN⟩

theorem C4_witness :
    1 ≤ 2 ∧
    ((minimax_ab_tree 2 4 0 true (-2) 2).2 ≤ (minimax_tree 2 4 0 true).2 ∧
     (2 ≤ 2 → 2 + 2 ≤ 4 →
       (minimax_ab_tree 2 4 0 true (-2) 2).2 < (minimax_tree 2 4 0 true).2)) :=
  ⟨by decide, C4_pruning_node_counts 2 4 (by decide)⟩

/-- C5: for every k >= 1 and N >= 0 the policy table has length N + 1,
    entry N is the absent value none, and every entry below N is the
    smallest move i in 1..k whose candidate value (-V[s+i] if s+i <= N,
    else -1) attains V[s]. -/
theorem C5_policy_invariants (k N : Nat) (hk : 1 ≤ k) :
    (solve_addition_game k N).policy.length = N + 1 ∧
    (solve_addition_game k N).policy.getD N none = none ∧
    ∀ s, s < N → ∃ i,
      (solve_addition_game k N).policy.getD s none = some i ∧
      1 ≤ i ∧ i ≤ k ∧
      (if s + i ≤ N then -((solve_addition_game k N).V.getD (s + i) 0)
       else -1) = (solve_addition_game k N).V.getD s 0 ∧
      ∀ j, 1 ≤ j → j < i →
        (if s + j ≤ N then -((solve_addition_game k N).V.getD (s + j) 0)
         else -1) ≠ (solve_addition_game k N).V.getD s 0 := by
  refine ⟨?_, ?_, ?_⟩
  · show ((solveSuffix k N N).map Prod.snd).length = N + 1
    rw [List.length_map, solveSuffix_length]
  · rw [solve_policy_getD k N N hk le_rfl, Nat.sub_self]
    rfl
  · intro s hs
    have hd1 : 1 ≤ N - s := by omega
    rw [solve_policy_getD k N s hk (by omega)]
    unfold polD
    rw [if_neg (by omega : ¬ N - s = 0)]
    by_cases hmod : (N - s) % (k + 1) = 0
    · rw [if_pos hmod]
      refine ⟨1, rfl, le_rfl, hk, ?_, ?_⟩
      · rw [if_pos (by omega : s + 1 ≤ N)]
        rw [solve_V_getD k N (s + 1) hk (by omega), solve_V_getD k N s hk (by omega)]
        have hne : (N - (s + 1)) % (k + 1) ≠ 0 := by
          rw [show N - (s + 1) = N - s - 1 from by omega]
          exact sub_mod_ne_zero k (N - s) 1 le_rfl hk (by omega) hmod
        rw [mvalD_of_mod_ne k _ hne, mvalD_of_mod_eq k _ hmod]
      · intro j hj1 hj2
        omega
    · rw [if_neg hmod]
      set r := (N - s) % (k + 1) with hrdef
      have hrk : r ≤ k := by
        have := Nat.mod_lt (N - s) (show 0 < k + 1 from by omega)
        omega
      have hr1 : 1 ≤ r := by omega
      have hrd : r ≤ N - s := Nat.mod_le _ _
      refine ⟨r, rfl, hr1, hrk, ?_, ?_⟩
      · rw [if_pos (by omega : s + r ≤ N)]
        rw [solve_V_getD k N (s + r) hk (by omega), solve_V_getD k N s hk (by omega)]
        have heq : (N - (s + r)) % (k + 1) = 0 := by
          rw [show N - (s + r) = N - s - r from by omega]
          exact sub_mod_self_mod k (N - s)
        rw [mvalD_of_mod_eq k _ heq, mvalD_of_mod_ne k _ hmod]
        norm_num
      · intro j hj1 hj2
        rw [if_pos (by omega : s + j ≤ N)]
        rw [solve_V_getD k N (s + j) hk (by omega), solve_V_getD k N s hk (by omega)]
        have hne : (N - (s + j)) % (k + 1) ≠ 0 := by
          intro h0
          rw [show N - (s + j) = N - s - j from by omega] at h0
          have := mod_eq_of_sub_mod_eq_zero k (N - s) j hj1 (by omega) (by omega) h0
          omega
        rw [mvalD_of_mod_ne k _ hne, mvalD_of_mod_ne k _ hmod]
        norm_num

theorem C5_witness :
    1 ≤ 3 ∧
    ((solve_addition_game 3 10).policy.length = 10 + 1 ∧
     (solve_addition_game 3 10).policy.getD 10 none = none ∧
     ∀ s, s < 10 → ∃ i,
       (solve_addition_game 3 10).policy.getD s none = some i ∧
       1 ≤ i ∧ i ≤ 3 ∧
       (if s + i ≤ 10 then -((solve_addition_game 3 10).V.getD (s + i) 0)
        else -1) = (solve_addition_game 3 10).V.getD s 0 ∧
       ∀ j, 1 ≤ j → j < i →
         (if s + j ≤ 10 then -((solve_addition_game 3 10).V.getD (s + j) 0)
          else -1) ≠ (solve_addition_game 3 10).V.getD s 0) :=
  ⟨by decide, C5_policy_invariants 3 10 (by decide)⟩

/-- C6: for every k >= 1 and N >= 0 the final table entry is the
    forced-bust base case: V[N] = -1 (for N = 0 it is the only entry). -/
theorem C6_base_case (k N : Nat) (hk : 1 ≤ k) :
    (solve_addition_game k N).V.getD N 0 = -1 := by
  rw [solve_V_getD k N N hk le_rfl, Nat.sub_self]
  exact mvalD_zero k

theorem C6_witness :
    1 ≤ 1 ∧ (solve_addition_game 1 0).V.getD 0 0 = -1 :=
  ⟨by decide, C6_base_case 1 0 (by decide)⟩

/-- C7: at every terminal state s >= N, minimax_tree returns -1 when
    Player I is to move and +1 when Player II is, independently of k;
    minimax_ab_tree behaves identically there for any alpha and beta. -/
theorem C7_terminal_values (k N s : Nat) (hk : 1 ≤ k) (hs : N ≤ s) (p : Bool) :
    (minimax_tree k N s p).1 = (if p then -1 else 1) ∧
    ∀ alpha beta : Int,
      (minimax_ab_tree k N s p alpha beta).1 = (if p then -1 else 1) := by
  constructor
  · rw [minimax_tree_terminal k N s p hs]
  · intro alpha beta
    rw [minimax_ab_terminal k N s p alpha beta hs]

theorem C7_witness :
    1 ≤ 2 ∧ 5 ≤ 7 ∧
    ((minimax_tree 2 5 7 true).1 = (if true then -1 else 1) ∧
     ∀ alpha beta : Int,
       (minimax_ab_tree 2 5 7 true alpha beta).1 = (if true then -1 else 1)) :=
  ⟨by decide, by decide, C7_terminal_values 2 5 7 (by decide) (by decide) true⟩

/-- C8: for every k >= 1, N >= 0 and every combination of optimal/worst
    policies for the two players, the simulated game starting at s = 0
    terminates after at most N + 1 moves, the final recorded move pushes
    the sum above N, and the recorded winner is the opponent of that
    final mover, i.e. the mover who busted is the loser. -/
theorem C8_simulation_terminates (k N : Nat) (hk : 1 ≤ k) (p1o p2o : Bool) :
    ∃ w traj, demo_game_play k N p1o p2o = some (w, traj) ∧
      1 ≤ traj.length ∧ traj.length ≤ N + 1 ∧
      ∃ last, traj.getLast? = some last ∧ N < last.sumAfter ∧
        w = !last.mover1 := by
  obtain ⟨w, steps, hrun, hne, hlen, last, hlast, hb, hw⟩ :=
    gamePlayLoop_total k N hk p1o p2o (N + 1) 0 true [] (by omega) (by omega)
  refine ⟨w, steps, ?_, ?_, by omega, last, hlast, hb, hw⟩
  · show gamePlayLoop k N p1o p2o (solve_addition_game k N).V
      (solve_addition_game k N).policy (N + 1) 0 true [] = some (w, steps)
    rw [hrun, List.nil_append]
  · exact List.length_pos.mpr hne

theorem C8_witness :
    1 ≤ 3 ∧
    (∃ w traj, demo_game_play 3 10 true true = some (w, traj) ∧
      1 ≤ traj.length ∧ traj.length ≤ 10 + 1 ∧
      ∃ last, traj.getLast? = some last ∧ 10 < last.sumAfter ∧
        w = !last.mover1) :=
  ⟨by decide, C8_simulation_terminates 3 10 (by decide) true true⟩

/-- C9: for k = 3, N = 10, Player I with the optimal policy against
    Player II with the worst-move policy: Player I wins, and the game
    takes no more moves than the optimal-vs-optimal game (both last six
    moves). -/
theorem C9_worst_opponent_no_longer :
    (demo_game_play 3 10 true false).map Prod.fst = some true ∧
    (demo_game_play 3 10 true false).map (fun r => r.2.length) = some 6 ∧
    (demo_game_play 3 10 true true).map (fun r => r.2.length) = some 6 ∧
    ((demo_game_play 3 10 true false).map (fun r => r.2.length)).getD 99 ≤
      ((demo_game_play 3 10 true true).map (fun r => r.2.length)).getD 0 := by
  refine ⟨by decide, by decide, by decide, by decide⟩

/-- C10: the policy of solve_addition_game in closed form: for every
    k >= 1 and s < N, policy[s] = (N - s) mod (k + 1) when that
    remainder is nonzero (the winning move) and policy[s] = 1 when it is
    zero (losing state, first scanned move kept). -/
theorem C10_policy_closed_form (k N s : Nat) (hk : 1 ≤ k) (hs : s < N) :
    (solve_addition_game k N).policy.getD s none =
      some (if (N - s) % (k + 1) = 0 then 1 else (N - s) % (k + 1)) := by
  rw [solve_policy_getD k N s hk (by omega)]
  unfold polD
  rw [if_neg (by omega : ¬ N - s = 0)]
  by_cases h : (N - s) % (k + 1) = 0
  · rw [if_pos h, if_pos h]
  · rw [if_neg h, if_neg h]

theorem C10_witness :
    1 ≤ 3 ∧ 0 < 10 ∧
    (solve_addition_game 3 10).policy.getD 0 none =
      some (if (10 - 0) % (3 + 1) = 0 then 1 else (10 - 0) % (3 + 1)) :=
  ⟨by decide, by decide, C10_policy_closed_form 3 10 0 (by decide) (by decide)⟩

end AdditionGame
